import Mathlib

/-!
Verification of the Relman release scripts.

Strings are modelled as `List Char`.  Python's decimal rendering of a
non-negative int is `natStr`; `intStr` renders a possibly negative int.
`splitDot` models `str.split(".")`, and `pyIntDigits` models `int(s)` on a
plain digit string (the only shape the scripts feed to `int`).
-/

namespace Relman

/-- The decimal digit character for `n % 10` (Python `str` of a digit). -/
def digitChar : Nat → Char
  | 0 => '0' | 1 => '1' | 2 => '2' | 3 => '3' | 4 => '4'
  | 5 => '5' | 6 => '6' | 7 => '7' | 8 => '8' | _ => '9'

/-- Fuel-driven decimal rendering (structural, so it evaluates in the kernel). -/
def natStrAux : Nat → Nat → List Char
  | 0, _ => []
  | fuel+1, n =>
    if n < 10 then [digitChar n] else natStrAux fuel (n / 10) ++ [digitChar (n % 10)]

/-- Python `str(n)` for a non-negative integer. -/
def natStr (n : Nat) : List Char := natStrAux (n + 1) n

/-- Python `str(i)` for an integer. -/
def intStr (i : Int) : List Char :=
  if i < 0 then '-' :: natStr i.natAbs else natStr i.toNat

/-- ASCII decimal digit test. -/
def isDig (c : Char) : Bool := 48 ≤ c.toNat && c.toNat ≤ 57

/-- Numeric value of a digit character. -/
def digitVal (c : Char) : Nat := c.toNat - 48

/-- Python `int(s)` restricted to plain digit strings; `none` models `ValueError`. -/
def pyIntDigits (s : List Char) : Option Nat :=
  if s ≠ [] ∧ s.all isDig then
    some (s.foldl (fun a c => 10 * a + digitVal c) 0)
  else none

/-- Python `s.split(".")` (keeps empty pieces, `"" ↦ [""]`). -/
def splitDot : List Char → List (List Char)
  | [] => [[]]
  | c :: cs =>
    if c = '.' then [] :: splitDot cs
    else
      match splitDot cs with
      | h :: t => (c :: h) :: t
      | [] => [[c]]

theorem natStrAux_congr (n : Nat) :
    ∀ f₁ f₂, n < f₁ → n < f₂ → natStrAux f₁ n = natStrAux f₂ n := by
  induction n using Nat.strong_induction_on with
  | _ n ih =>
    intro f₁ f₂ h₁ h₂
    cases f₁ with
    | zero => omega
    | succ f₁ =>
      cases f₂ with
      | zero => omega
      | succ f₂ =>
        simp only [natStrAux]
        by_cases h : n < 10
        · simp [h]
        · simp only [if_neg h]
          have hd : n / 10 < n := Nat.div_lt_self (by omega) (by omega)
          rw [ih (n / 10) hd f₁ f₂ (by omega) (by omega)]

theorem natStr_unfold (n : Nat) :
    natStr n = if n < 10 then [digitChar n] else natStr (n / 10) ++ [digitChar (n % 10)] := by
  show natStrAux (n + 1) n = _
  simp only [natStrAux]
  by_cases h : n < 10
  · simp [h]
  · simp only [if_neg h]
    have hd : n / 10 < n := Nat.div_lt_self (by omega) (by omega)
    rw [natStrAux_congr (n / 10) n (n / 10 + 1) (by omega) (by omega)]
    rfl

theorem isDig_digitChar (n : Nat) : isDig (digitChar n) = true := by
  match n with
  | 0 | 1 | 2 | 3 | 4 | 5 | 6 | 7 | 8 => decide
  | n + 9 => exact rfl

theorem digitVal_digitChar (n : Nat) (h : n < 10) : digitVal (digitChar n) = n := by
  match n with
  | 0 | 1 | 2 | 3 | 4 | 5 | 6 | 7 | 8 | 9 => decide
  | n + 10 => omega

theorem natStr_all_digit (n : Nat) : ∀ c ∈ natStr n, isDig c = true := by
  induction n using Nat.strong_induction_on with
  | _ n ih =>
    intro c hc
    rw [natStr_unfold] at hc
    by_cases h : n < 10
    · simp only [if_pos h, List.mem_singleton] at hc
      subst hc; exact isDig_digitChar n
    · simp only [if_neg h, List.mem_append, List.mem_singleton] at hc
      rcases hc with hc | hc
      · exact ih (n / 10) (Nat.div_lt_self (by omega) (by omega)) c hc
      · subst hc; exact isDig_digitChar (n % 10)

theorem natStr_ne_nil (n : Nat) : natStr n ≠ [] := by
  rw [natStr_unfold]
  by_cases h : n < 10 <;> simp [h]

theorem foldl_natStr (n : Nat) :
    ∀ acc, (natStr n).foldl (fun a c => 10 * a + digitVal c) acc =
      acc * 10 ^ (natStr n).length + n := by
  induction n using Nat.strong_induction_on with
  | _ n ih =>
    intro acc
    rw [natStr_unfold]
    by_cases h : n < 10
    · simp [if_pos h, List.foldl, digitVal_digitChar n h]; ring
    · simp only [if_neg h, List.foldl_append, List.foldl, List.length_append,
        List.length_singleton]
      rw [ih (n / 10) (Nat.div_lt_self (by omega) (by omega)) acc]
      rw [digitVal_digitChar (n % 10) (Nat.mod_lt _ (by omega))]
      have : 10 * (acc * 10 ^ (natStr (n / 10)).length + n / 10) + n % 10 =
          acc * (10 ^ (natStr (n / 10)).length * 10) + (10 * (n / 10) + n % 10) := by ring
      rw [this, Nat.div_add_mod, pow_succ]

theorem pyIntDigits_natStr (n : Nat) : pyIntDigits (natStr n) = some n := by
  unfold pyIntDigits
  rw [if_pos]
  · rw [foldl_natStr n 0]
    simp
  · exact ⟨natStr_ne_nil n, List.all_eq_true.mpr (natStr_all_digit n)⟩

theorem isDig_toNat {c : Char} (h : isDig c = true) : 48 ≤ c.toNat ∧ c.toNat ≤ 57 := by
  simp only [isDig, Bool.and_eq_true, decide_eq_true_eq] at h
  exact h

theorem isDig_ne_dot {c : Char} (h : isDig c = true) : c ≠ '.' := by
  intro hc
  subst hc
  simp [isDig] at h

theorem natStr_no_dot (n : Nat) : '.' ∉ natStr n := by
  intro h
  exact isDig_ne_dot (natStr_all_digit n '.' h) rfl

/-! ### `splitDot` structure lemmas -/

theorem splitDot_ne_nil (s : List Char) : splitDot s ≠ [] := by
  cases s with
  | nil => simp [splitDot]
  | cons c cs =>
    simp only [splitDot]
    by_cases h : c = '.'
    · simp [h]
    · simp only [if_neg h]
      cases hs : splitDot cs <;> simp

theorem splitDot_nodot {s : List Char} (h : '.' ∉ s) : splitDot s = [s] := by
  induction s with
  | nil => rfl
  | cons c cs ih =>
    simp only [List.mem_cons, not_or] at h
    have hc : ¬(c = '.') := fun hc => h.1 hc.symm
    simp only [splitDot, if_neg hc]
    rw [ih h.2]

theorem splitDot_append_dot {u : List Char} (hu : '.' ∉ u) (w : List Char) :
    splitDot (u ++ '.' :: w) = u :: splitDot w := by
  induction u with
  | nil => simp [splitDot]
  | cons c cs ih =>
    simp only [List.mem_cons, not_or] at hu
    have hc : ¬(c = '.') := fun hc => hu.1 hc.symm
    rw [List.cons_append]
    simp only [splitDot, if_neg hc]
    rw [ih hu.2]

/-- Rebuild a string from its dot-split pieces. -/
def joinDots : List (List Char) → List Char
  | [] => []
  | [x] => x
  | x :: y :: t => x ++ '.' :: joinDots (y :: t)

theorem joinDots_splitDot (s : List Char) : joinDots (splitDot s) = s := by
  induction s with
  | nil => rfl
  | cons c cs ih =>
    simp only [splitDot]
    by_cases h : c = '.'
    · subst h
      rcases hs : splitDot cs with _ | ⟨y, t⟩
      · exact absurd hs (splitDot_ne_nil cs)
      · rw [hs] at ih
        simp only [if_pos rfl, joinDots, List.nil_append]
        rw [ih]
    · simp only [if_neg h]
      rcases hs : splitDot cs with _ | ⟨y, t⟩
      · exact absurd hs (splitDot_ne_nil cs)
      · rw [hs] at ih
        cases t with
        | nil => simpa [joinDots] using congrArg (c :: ·) ih
        | cons z t' => simpa [joinDots] using congrArg (c :: ·) ih

theorem splitDot_two {s a b : List Char} (h : splitDot s = [a, b]) :
    s = a ++ '.' :: b := by
  have := joinDots_splitDot s
  rw [h] at this
  simpa [joinDots] using this.symm

theorem splitDot_three {s a b c : List Char} (h : splitDot s = [a, b, c]) :
    s = a ++ '.' :: (b ++ '.' :: c) := by
  have := joinDots_splitDot s
  rw [h] at this
  simpa [joinDots] using this.symm

/-! ### ESR / Release dot-version functions (`esr-release-branch.py`) -/

/-- `bump_version` from esr-release-branch.py: append `.1` to a two-component
version, increment the last component of a three-component version, raise
(`none`) otherwise. -/
def bump_version (prev : List Char) : Option (List Char) :=
  match splitDot prev with
  | [a, b] => some (a ++ '.' :: b ++ ('.' :: '1' :: []))
  | [a, b, c] => (pyIntDigits c).map (fun n => a ++ '.' :: b ++ '.' :: natStr (n + 1))
  | _ => none

/-- The ESR base-version derivation from `main` in esr-release-branch.py
(lines 103–119): two components ending `.0` keep the current version; other
two-component versions decrement the minor; `X.0.0` becomes `X.0`; any other
three-component version decrements the minor (not the patch). -/
def esr_base_version (cv : List Char) : Option (List Char) :=
  match splitDot cv with
  | [a, b] =>
    if b = ['0'] then some cv
    else (pyIntDigits b).map
      (fun n : Nat => a ++ '.' :: intStr ((n : Int) - 1) ++ ('.' :: '0' :: []))
  | [a, b, c] =>
    if b = ['0'] ∧ c = ['0'] then some (a ++ ('.' :: '0' :: []))
    else (pyIntDigits b).map
      (fun n : Nat => a ++ '.' :: intStr ((n : Int) - 1) ++ ('.' :: '0' :: []))
  | _ => none

/-! ### iOS rolling bump (`ios-merge-day.py`) -/

/-- `calculate_next_version` from ios-merge-day.py: parse `major.minor`,
increment the minor when it is below 3, otherwise roll over to `(major+1).0`. -/
def calculate_next_version (s : List Char) : Option (List Char) :=
  match splitDot s with
  | [a, b] =>
    (pyIntDigits a).bind fun ma =>
      (pyIntDigits b).map fun mi =>
        if mi < 3 then natStr ma ++ '.' :: natStr (mi + 1)
        else natStr (ma + 1) ++ ('.' :: '0' :: [])
  | _ => none

/-! ### Helper lemmas for the version-arithmetic claims -/

theorem splitDot_parts_nodot (s : List Char) : ∀ u ∈ splitDot s, '.' ∉ u := by
  induction s with
  | nil =>
    intro u hu
    simp only [splitDot, List.mem_singleton] at hu
    subst hu; simp
  | cons c cs ih =>
    intro u hu
    simp only [splitDot] at hu
    by_cases h : c = '.'
    · rw [if_pos h] at hu
      rcases List.mem_cons.mp hu with rfl | hu
      · simp
      · exact ih u hu
    · rw [if_neg h] at hu
      rcases hs : splitDot cs with _ | ⟨hd, t⟩
      · exact absurd hs (splitDot_ne_nil cs)
      · rw [hs] at hu
        rcases List.mem_cons.mp hu with rfl | hu
        · intro hmem
          rcases List.mem_cons.mp hmem with h' | hmem
          · exact h h'.symm
          · exact ih hd (by rw [hs]; exact List.mem_cons_self hd t) hmem
        · exact ih u (by rw [hs]; exact List.mem_cons_of_mem hd hu)

theorem intStr_sub_one {nb : Nat} (h : 1 ≤ nb) :
    intStr ((nb : Int) - 1) = natStr (nb - 1) := by
  unfold intStr
  rw [if_neg (by omega)]
  congr 1
  omega

theorem natStr_succ_ne_zero_str (n : Nat) : natStr (n + 1) ≠ ['0'] := by
  intro h
  have h1 := pyIntDigits_natStr (n + 1)
  rw [h] at h1
  have : pyIntDigits ['0'] = some 0 := by decide
  rw [this] at h1
  simp at h1

/-! ### Equation lemmas (reduce the `match` on a known `splitDot` result) -/

theorem bump_version_two {s a b : List Char} (h : splitDot s = [a, b]) :
    bump_version s = some (a ++ '.' :: b ++ ('.' :: '1' :: [])) := by
  unfold bump_version
  rw [h]

theorem bump_version_three {s a b c : List Char} (h : splitDot s = [a, b, c]) :
    bump_version s = (pyIntDigits c).map (fun n => a ++ '.' :: b ++ '.' :: natStr (n + 1)) := by
  unfold bump_version
  rw [h]

theorem esr_base_version_two {cv a b : List Char} (h : splitDot cv = [a, b]) :
    esr_base_version cv =
      if b = ['0'] then some cv
      else (pyIntDigits b).map
        (fun n : Nat => a ++ '.' :: intStr ((n : Int) - 1) ++ ('.' :: '0' :: [])) := by
  unfold esr_base_version
  rw [h]

theorem esr_base_version_three {cv a b c : List Char} (h : splitDot cv = [a, b, c]) :
    esr_base_version cv =
      if b = ['0'] ∧ c = ['0'] then some (a ++ ('.' :: '0' :: []))
      else (pyIntDigits b).map
        (fun n : Nat => a ++ '.' :: intStr ((n : Int) - 1) ++ ('.' :: '0' :: [])) := by
  unfold esr_base_version
  rw [h]

theorem calculate_next_version_two {s a b : List Char} (h : splitDot s = [a, b]) :
    calculate_next_version s =
      (pyIntDigits a).bind fun ma =>
        (pyIntDigits b).map fun mi =>
          if mi < 3 then natStr ma ++ '.' :: natStr (mi + 1)
          else natStr (ma + 1) ++ ('.' :: '0' :: []) := by
  unfold calculate_next_version
  rw [h]

/-! ### Claims C3, C4, C5, C7, C10 -/

/-- Claim C3, counterexample: on `140.1.2` (three components, nonzero patch)
the code derives `140.0.0`, not the `140.1.0` required by the claim — the
minor is decremented, not the patch. -/
theorem esr_base_version_c3_counterexample :
    esr_base_version ("140.1.2".data) = some ("140.0.0".data) ∧
    ("140.0.0".data : List Char) ≠ "140.1.0".data := by
  exact ⟨by decide, by decide⟩

/-- Claim C3 (amended): the base is the current version when a two-component
version already ends `.0`; `X.0.0` gives `X.0`; in every other two- or
three-component case the minor is decremented by 1 (as a Python int, so a
zero minor such as `140.0.5` yields `140.-1.0`) — also when a nonzero patch
component is present, the patch being discarded — and the result is normalized
to its `.0` terminal form. -/
theorem esr_base_version_spec (cv a b c : List Char) (nb : Nat) :
    (splitDot cv = [a, b] → b = ['0'] → esr_base_version cv = some cv) ∧
    (splitDot cv = [a, b] → b ≠ ['0'] → pyIntDigits b = some nb →
      esr_base_version cv =
        some (a ++ '.' :: intStr ((nb : Int) - 1) ++ ('.' :: '0' :: []))) ∧
    (splitDot cv = [a, b, c] → b = ['0'] → c = ['0'] →
      esr_base_version cv = some (a ++ ('.' :: '0' :: []))) ∧
    (splitDot cv = [a, b, c] → ¬(b = ['0'] ∧ c = ['0']) → pyIntDigits b = some nb →
      esr_base_version cv =
        some (a ++ '.' :: intStr ((nb : Int) - 1) ++ ('.' :: '0' :: []))) := by
  refine ⟨?_, ?_, ?_, ?_⟩
  · intro hs hb
    rw [esr_base_version_two hs, if_pos hb]
  · intro hs hb hpb
    rw [esr_base_version_two hs, if_neg hb, hpb]
    rfl
  · intro hs hb hc
    rw [esr_base_version_three hs, if_pos ⟨hb, hc⟩]
  · intro hs hbc hpb
    rw [esr_base_version_three hs, if_neg hbc, hpb]
    rfl

theorem esr_base_version_spec_witness :
    esr_base_version ("140.2".data) = some ("140.1.0".data) ∧
    esr_base_version ("140.0.5".data) = some ("140.-1.0".data) := by
  constructor
  · have h :=
      (esr_base_version_spec ("140.2".data) ("140".data) ("2".data) [] 2).2.1
        (by decide) (by decide) (by decide)
    rw [h]; decide
  · have h :=
      (esr_base_version_spec ("140.0.5".data) ("140".data) ("0".data) ("5".data) 0).2.2.2
        (by decide) (by decide) (by decide)
    rw [h]; decide

/-- Claim C4, counterexample: the round trip fails even on the simple-increment
path — bumping the base `140.1.0` yields `140.1.1`, whose derived base is
`140.0.0`, not the original `140.1.0`. -/
theorem bump_then_base_c4_counterexample :
    bump_version ("140.1.0".data) = some ("140.1.1".data) ∧
    esr_base_version ("140.1.1".data) = some ("140.0.0".data) ∧
    ("140.0.0".data : List Char) ≠ "140.1.0".data := by
  exact ⟨by decide, by decide, by decide⟩

/-- Claim C4 (amended): `bump` followed by the base-version derivation does not
recover the pre-bump version.  For any two- or three-component version with a
digit minor, the composition yields `major.(minor-1).0` — the bumped patch is
discarded and the minor decremented — so the original is recovered only when
it already had exactly that form. -/
theorem bump_then_base_spec (cv a b : List Char) (nb : Nat)
    (hb : pyIntDigits b = some nb) :
    (∀ c nc, splitDot cv = [a, b, c] → pyIntDigits c = some nc →
      (bump_version cv).bind esr_base_version =
        some (a ++ '.' :: intStr ((nb : Int) - 1) ++ ('.' :: '0' :: []))) ∧
    (splitDot cv = [a, b] →
      (bump_version cv).bind esr_base_version =
        some (a ++ '.' :: intStr ((nb : Int) - 1) ++ ('.' :: '0' :: []))) := by
  constructor
  · intro c nc hs hc
    have ha : '.' ∉ a := splitDot_parts_nodot cv a (by rw [hs]; simp)
    have hbd : '.' ∉ b := splitDot_parts_nodot cv b (by rw [hs]; simp)
    rw [bump_version_three hs, hc, Option.map_some', Option.some_bind]
    have hsplit : splitDot (a ++ '.' :: b ++ '.' :: natStr (nc + 1)) =
        [a, b, natStr (nc + 1)] := by
      have e1 : a ++ '.' :: b ++ '.' :: natStr (nc + 1) =
          a ++ '.' :: (b ++ '.' :: natStr (nc + 1)) := by simp
      rw [e1, splitDot_append_dot ha, splitDot_append_dot hbd,
        splitDot_nodot (natStr_no_dot (nc + 1))]
    rw [esr_base_version_three hsplit,
      if_neg (fun h => natStr_succ_ne_zero_str nc h.2), hb, Option.map_some']
  · intro hs
    have ha : '.' ∉ a := splitDot_parts_nodot cv a (by rw [hs]; simp)
    have hbd : '.' ∉ b := splitDot_parts_nodot cv b (by rw [hs]; simp)
    rw [bump_version_two hs, Option.some_bind]
    have hsplit : splitDot (a ++ '.' :: b ++ ('.' :: '1' :: [])) = [a, b, ['1']] := by
      have e1 : a ++ '.' :: b ++ ('.' :: '1' :: []) =
          a ++ '.' :: (b ++ '.' :: ['1']) := by simp
      rw [e1, splitDot_append_dot ha, splitDot_append_dot hbd, splitDot_nodot (by simp)]
    rw [esr_base_version_three hsplit, if_neg (by simp), hb, Option.map_some']

theorem bump_then_base_spec_witness :
    (bump_version ("140.1.0".data)).bind esr_base_version = some ("140.0.0".data) := by
  have h :=
    (bump_then_base_spec ("140.1.0".data) ("140".data) ("1".data) 1 (by decide)).1
      ("0".data) 0 (by decide) (by decide)
  rw [h]; decide

/-- Claim C5: the iOS bump on `major.minor` with `minor ∈ {0,1,2,3}` increments
the minor while it is below 3 and rolls over to `(major+1).0` at 3; it is a
pure function of the previous version string alone. -/
theorem ios_bump_spec (ma mi : Nat) (_hmi : mi ≤ 3) :
    calculate_next_version (natStr ma ++ '.' :: natStr mi) =
      some (if mi < 3 then natStr ma ++ '.' :: natStr (mi + 1)
            else natStr (ma + 1) ++ ('.' :: '0' :: [])) := by
  have hsplit : splitDot (natStr ma ++ '.' :: natStr mi) = [natStr ma, natStr mi] := by
    rw [splitDot_append_dot (natStr_no_dot ma), splitDot_nodot (natStr_no_dot mi)]
  rw [calculate_next_version_two hsplit, pyIntDigits_natStr, pyIntDigits_natStr,
    Option.some_bind, Option.map_some']

theorem ios_bump_spec_witness :
    calculate_next_version ("142.3".data) = some ("143.0".data) := by
  have h := ios_bump_spec 142 3 (by decide)
  rw [(by decide : (natStr 142 ++ '.' :: natStr 3) = ("142.3".data))] at h
  rw [h]; decide

/-- Claim C10: a minor component greater than 3 (e.g. `142.9`) is not rejected:
the bump silently rolls over to `(major+1).0`; the `minor ∈ {0,1,2,3}`
invariant is assumed, never checked, at the public interface. -/
theorem ios_bump_out_of_range (ma mi : Nat) (h : 3 < mi) :
    calculate_next_version (natStr ma ++ '.' :: natStr mi) =
      some (natStr (ma + 1) ++ ('.' :: '0' :: [])) := by
  have hsplit : splitDot (natStr ma ++ '.' :: natStr mi) = [natStr ma, natStr mi] := by
    rw [splitDot_append_dot (natStr_no_dot ma), splitDot_nodot (natStr_no_dot mi)]
  rw [calculate_next_version_two hsplit, pyIntDigits_natStr, pyIntDigits_natStr,
    Option.some_bind, Option.map_some', if_neg (by omega)]

theorem ios_bump_out_of_range_witness :
    calculate_next_version ("142.9".data) = some ("143.0".data) := by
  have h := ios_bump_out_of_range 142 9 (by decide)
  rw [(by decide : (natStr 142 ++ '.' :: natStr 9) = ("142.9".data))] at h
  rw [h]; decide

/-- Claim C7: `bump_version` appends `.1` to a two-component version,
increments the third component of a three-component version, and fails
(`ValueError`, modelled by `none`) on any other component count — no silent
coercion. -/
theorem bump_version_spec (s a b c : List Char) (n : Nat) :
    (splitDot s = [a, b] → bump_version s = some (s ++ ('.' :: '1' :: []))) ∧
    (splitDot s = [a, b, c] → pyIntDigits c = some n →
      bump_version s = some (a ++ '.' :: b ++ '.' :: natStr (n + 1))) ∧
    ((splitDot s).length ≠ 2 → (splitDot s).length ≠ 3 → bump_version s = none) := by
  refine ⟨?_, ?_, ?_⟩
  · intro hs
    rw [bump_version_two hs, splitDot_two hs]
  · intro hs hc
    rw [bump_version_three hs, hc, Option.map_some']
  · intro h2 h3
    unfold bump_version
    rcases hs : splitDot s with _ | ⟨x, t1⟩
    · rfl
    rcases t1 with _ | ⟨y, t2⟩
    · rfl
    rcases t2 with _ | ⟨z, t3⟩
    · rw [hs] at h2; simp at h2
    rcases t3 with _ | ⟨w, t4⟩
    · rw [hs] at h3; simp at h3
    rfl

theorem bump_version_spec_witness :
    bump_version ("140.1".data) = some ("140.1.1".data) := by
  have h := (bump_version_spec ("140.1".data) ("140".data) ("1".data) [] 0).1 (by decide)
  rw [h]; decide

/-! ### Desktop pre-release stripping (`as-merge-day.py`, `update_version_txt_release`)

`re.sub(r"a1\s*$", "", s)`: a match of this pattern at offset `p` exists iff
`a1` sits at `p` and every following character is whitespace (`$` matches at
the end or before a final newline, and a newline is itself `\s`, so the greedy
`\s*` always extends the match to the end of the string).  The substitution
therefore truncates the string at the leftmost such position. -/

/-- Python regex `\s` on ASCII text. -/
def pyWS (c : Char) : Bool :=
  c == ' ' || c == '\t' || c == '\n' || c == '\r' || c == '\x0b' || c == '\x0c'

/-- Does `a1\s*$` match at the head of the string? -/
def a1HeadB : List Char → Bool
  | c :: c1 :: t => c == 'a' && c1 == '1' && t.all pyWS
  | _ => false

/-- Does `a1\s*$` match at offset `p`? -/
def markerAtB (s : List Char) (p : Nat) : Bool := a1HeadB (s.drop p)

/-- Leftmost match position of `a1\s*$`. -/
def findA1 : List Char → Option Nat
  | [] => none
  | c :: cs => if a1HeadB (c :: cs) then some 0 else (findA1 cs).map (· + 1)

/-- `re.sub(r"a1\s*$", "", s)`; the pre-release stripper of the release phase. -/
def subA1 (s : List Char) : List Char :=
  match findA1 s with
  | none => s
  | some p => s.take p

/-- Whether the marker pattern matches anywhere in `s` (decidably). -/
def hasMarkerB (s : List Char) : Bool :=
  (List.range s.length).any (markerAtB s)

/-- Python `str.strip()` (ASCII whitespace). -/
def pyStrip (s : List Char) : List Char :=
  (((s.dropWhile pyWS).reverse).dropWhile pyWS).reverse

/-- The whole `update_version_txt_release` text transformation: strip the file
content, drop a trailing `a1`, report whether the value changed. -/
def update_version_txt_release (original : List Char) : Bool × List Char :=
  let stripped := pyStrip original
  let nv := subA1 stripped
  (decide (nv ≠ stripped), nv)

theorem findA1_markerAt {s : List Char} {p : Nat} (h : findA1 s = some p) :
    markerAtB s p = true := by
  induction s generalizing p with
  | nil => simp [findA1] at h
  | cons c cs ih =>
    rw [findA1] at h
    by_cases hc : a1HeadB (c :: cs) = true
    · rw [if_pos hc] at h
      cases h
      exact hc
    · rw [if_neg hc] at h
      rcases Option.map_eq_some'.mp h with ⟨p', hp', rfl⟩
      exact ih hp'

theorem markerAtB_lt {s : List Char} {p : Nat} (h : markerAtB s p = true) :
    p < s.length := by
  by_contra h'
  rw [markerAtB, List.drop_of_length_le (by omega)] at h
  simp [a1HeadB] at h

theorem findA1_eq_none {s : List Char} (h : hasMarkerB s = false) :
    findA1 s = none := by
  cases hf : findA1 s with
  | none => rfl
  | some p =>
    have hm := findA1_markerAt hf
    have hlt := markerAtB_lt hm
    have hany : (List.range s.length).any (markerAtB s) = true :=
      List.any_eq_true.mpr ⟨p, List.mem_range.mpr hlt, hm⟩
    rw [hasMarkerB, hany] at h
    cases h

theorem a1HeadB_head {c : Char} {cs : List Char} (h : a1HeadB (c :: cs) = true) :
    c = 'a' := by
  cases cs with
  | nil => simp [a1HeadB] at h
  | cons c1 t =>
    simp only [a1HeadB, Bool.and_eq_true, beq_iff_eq] at h
    exact h.1.1

theorem findA1_append_no_a {u : List Char} (hu : ∀ c ∈ u, c ≠ 'a') (w : List Char) :
    findA1 (u ++ w) = (findA1 w).map (· + u.length) := by
  induction u with
  | nil =>
    simp only [List.nil_append, List.length_nil]
    cases hw : findA1 w <;> simp
  | cons c cs ih =>
    rw [List.cons_append, findA1]
    have hc : ¬(a1HeadB (c :: (cs ++ w)) = true) := fun h =>
      hu c (List.mem_cons_self c cs) (a1HeadB_head h)
    rw [if_neg hc, ih (fun d hd => hu d (List.mem_cons_of_mem c hd))]
    cases hw : findA1 w with
    | none => rfl
    | some p =>
      simp only [Option.map_some', Option.some.injEq, List.length_cons]
      omega

theorem natStr_no_a (N : Nat) : ∀ c ∈ natStr N, c ≠ 'a' := by
  intro c hc hca
  subst hca
  have := isDig_toNat (natStr_all_digit N 'a' hc)
  simp at this

/-! ### Claim C6 -/

/-- Claim C6, counterexample: stripping is not idempotent on every string —
`5.0a1a1` strips to `5.0a1`, and a second application strips again to `5.0`. -/
theorem strip_a1_c6_counterexample :
    subA1 ("5.0a1a1".data) = "5.0a1".data ∧
    subA1 (subA1 ("5.0a1a1".data)) ≠ subA1 ("5.0a1a1".data) := by
  exact ⟨by decide, by decide⟩

/-- Claim C6 (amended): on a valid Desktop version `N.0a1` stripping yields
`N.0` and a second application changes nothing; the stripper is a no-op on any
string in which the marker pattern does not match; but idempotence fails for
strings carrying a repeated marker such as `5.0a1a1`. -/
theorem strip_a1_spec (N : Nat) (s : List Char) (hs : hasMarkerB s = false) :
    subA1 (natStr N ++ ('.' :: '0' :: 'a' :: '1' :: [])) =
      natStr N ++ ('.' :: '0' :: []) ∧
    subA1 (subA1 (natStr N ++ ('.' :: '0' :: 'a' :: '1' :: []))) =
      subA1 (natStr N ++ ('.' :: '0' :: 'a' :: '1' :: [])) ∧
    subA1 s = s := by
  have hfind : findA1 (natStr N ++ ('.' :: '0' :: 'a' :: '1' :: [])) =
      some (2 + (natStr N).length) := by
    rw [findA1_append_no_a (natStr_no_a N)]
    rfl
  have h1 : subA1 (natStr N ++ ('.' :: '0' :: 'a' :: '1' :: [])) =
      natStr N ++ ('.' :: '0' :: []) := by
    unfold subA1
    rw [hfind]
    have e : 2 + (natStr N).length = (natStr N).length + 2 := by omega
    rw [e]
    show List.take ((natStr N).length + 2) (natStr N ++ ('.' :: '0' :: 'a' :: '1' :: [])) =
      natStr N ++ ('.' :: '0' :: [])
    rw [List.take_append]
    rfl
  refine ⟨h1, ?_, ?_⟩
  · rw [h1]
    unfold subA1
    rw [findA1_append_no_a (natStr_no_a N)]
    rfl
  · unfold subA1
    rw [findA1_eq_none hs]

theorem strip_a1_spec_witness :
    subA1 ("5.0a1".data) = "5.0".data ∧ subA1 ("7.0".data) = "7.0".data := by
  have h := strip_a1_spec 5 ("7.0".data) (by decide)
  refine ⟨?_, h.2.2⟩
  have e : natStr 5 ++ ('.' :: '0' :: 'a' :: '1' :: []) = "5.0a1".data := by decide
  have e2 : natStr 5 ++ ('.' :: '0' :: []) = "5.0".data := by decide
  rw [e, e2] at h
  exact h.1

/-! ### Changelog section engine (`as-merge-day.py`)

The two changelog functions work with three regexes:
`^#\s*v<V>\.0\s*\(In progress\)` (IGNORECASE | MULTILINE),
`^#\s*v\d+\.\d+\s*\(.+?\)` (MULTILINE, case-sensitive), and
`\[Full Changelog\]\((?:In progress)\)` (IGNORECASE).
Each is embedded as a deterministic matcher that consumes from the current
position and returns the unconsumed rest (these patterns never need
backtracking: every `\s*`/`\d+` is followed by a non-matching literal, and
`.+?\)` just scans to the first closing parenthesis on the line). -/

/-- ASCII lowering on code points (`re.IGNORECASE` folding). -/
def lowerN (n : Nat) : Nat := if 65 ≤ n ∧ n ≤ 90 then n + 32 else n

/-- Case-insensitive character comparison. -/
def ciEq (a b : Char) : Bool := lowerN a.toNat == lowerN b.toNat

/-- Case-insensitive literal matcher: consume `pat`, return the rest. -/
def litCI : List Char → List Char → Option (List Char)
  | [], s => some s
  | _ :: _, [] => none
  | p :: ps, c :: cs => if ciEq p c then litCI ps cs else none

/-- `\s*`: drop the maximal leading whitespace run. -/
def dropWS : List Char → List Char
  | [] => []
  | c :: cs => if pyWS c then dropWS cs else c :: cs

/-- Consume a maximal digit run. -/
def dropDigits : List Char → List Char
  | [] => []
  | c :: cs => if isDig c then dropDigits cs else c :: cs

/-- `\d+`: at least one digit, consume the whole run. -/
def digits1 : List Char → Option (List Char)
  | [] => none
  | c :: cs => if isDig c then some (dropDigits cs) else none

/-- Scan for the first `)` on the line (the tail of `.+?\)` after one
consumed character); fail at a newline or the end. -/
def scanClose : List Char → Option (List Char)
  | [] => none
  | c :: cs => if c = ')' then some cs else if c = '\n' then none else scanClose cs

/-- The version literal `v<V>.0` of the header pattern. -/
def vlit (V : Nat) : List Char := 'v' :: natStr V ++ ('.' :: '0' :: [])

/-- The literal `(In progress)`. -/
def ipLit : List Char := "(In progress)".data

/-- The placeholder literal `[Full Changelog](In progress)`. -/
def placeholderLit : List Char := "[Full Changelog](In progress)".data

/-- One attempt of `^#\s*v<V>\.0\s*\(In progress\)` (IGNORECASE) at the
current position; returns the unconsumed rest on success. -/
def matchHeaderIP (V : Nat) : List Char → Option (List Char)
  | [] => none
  | c :: s1 =>
    if c = '#' then
      (litCI (vlit V) (dropWS s1)).bind fun s2 => litCI ipLit (dropWS s2)
    else none

/-- One attempt of the generic header pattern `^#\s*v\d+\.\d+\s*\(.+?\)`
(case-sensitive) at the current position. -/
def matchAnyHeader : List Char → Option (List Char)
  | [] => none
  | c :: s1 =>
    if c = '#' then
      match dropWS s1 with
      | 'v' :: s2 =>
        (digits1 s2).bind fun s3 =>
          match s3 with
          | '.' :: s4 =>
            (digits1 s4).bind fun s5 =>
              match dropWS s5 with
              | '(' :: d :: ds => if d = '\n' then none else scanClose ds
              | _ => none
          | _ => none
      | _ => none
    else none

/-- Search for a `^`-anchored MULTILINE pattern: try the matcher at every
line-start position, leftmost first; `ls` says whether the current position
starts a line.  Returns (offset, consumed length). -/
def searchML (m : List Char → Option (List Char)) : Bool → List Char → Option (Nat × Nat)
  | ls, [] =>
    match (if ls then m [] else none) with
    | some r => some (0, ([] : List Char).length - r.length)
    | none => none
  | ls, c :: cs =>
    match (if ls then m (c :: cs) else none) with
    | some r => some (0, (c :: cs).length - r.length)
    | none => (searchML m (c == '\n') cs).map (fun q => (q.1 + 1, q.2))

/-- Unanchored search: try the matcher at every position, leftmost first. -/
def searchPlain (m : List Char → Option (List Char)) : List Char → Option (Nat × Nat)
  | [] =>
    match m [] with
    | some r => some (0, ([] : List Char).length - r.length)
    | none => none
  | c :: cs =>
    match m (c :: cs) with
    | some r => some (0, (c :: cs).length - r.length)
    | none => (searchPlain m cs).map (fun q => (q.1 + 1, q.2))

/-- `re.subn(pat, repl, s, count=1)` for a `^`-anchored MULTILINE pattern. -/
def subnFirstML (m : List Char → Option (List Char)) (repl s : List Char) :
    List Char × Nat :=
  match searchML m true s with
  | none => (s, 0)
  | some (p, k) => (s.take p ++ repl ++ s.drop (p + k), 1)

/-- `re.subn(pat, repl, s, count=1)` for an unanchored pattern. -/
def subnFirstPlain (m : List Char → Option (List Char)) (repl s : List Char) :
    List Char × Nat :=
  match searchPlain m s with
  | none => (s, 0)
  | some (p, k) => (s.take p ++ repl ++ s.drop (p + k), 1)

/-- Does position `p` start a line? -/
def lineStartAt (s : List Char) (p : Nat) : Bool :=
  p == 0 || s[p - 1]? == some '\n'

/-- `pattern.search(s, pos)` for a MULTILINE `^`-anchored pattern. -/
def searchAt (m : List Char → Option (List Char)) (s : List Char) (pos : Nat) :
    Option (Nat × Nat) :=
  (searchML m (lineStartAt s pos) (s.drop pos)).map (fun q => (pos + q.1, q.2))

/-- SectionLocator: the span of the in-progress section for version `V` —
start offset, header-match length, and section end (the position of the next
generic header, or the document length). -/
def locateSection (V : Nat) (md : List Char) : Option (Nat × Nat × Nat) :=
  match searchAt (matchHeaderIP V) md 0 with
  | none => none
  | some (start, hlen) =>
    match searchAt matchAnyHeader md (start + hlen) with
    | some (p, _) => some (start, hlen, p)
    | none => some (start, hlen, md.length)

/-- CompareLinkBuilder: the fixed-host compare URL. -/
def compareUrl (prev : Int) (v : Nat) : List Char :=
  "https://github.com/mozilla/application-services/compare/v".data ++ intStr prev ++
    ".0...v".data ++ natStr v ++ ".0".data

/-- The dated header `# v<V>.0 (_<date>_)`. -/
def datedHeader (V : Nat) (date : List Char) : List Char :=
  "# v".data ++ natStr V ++ ".0 (_".data ++ date ++ "_)".data

/-- The resolved link text `[Full Changelog](<url>)`. -/
def fullChangelogLink (url : List Char) : List Char :=
  "[Full Changelog](".data ++ url ++ ")".data

/-- The fresh top section prepended by the start-next-cycle phase. -/
def newTopSection (V : Nat) : List Char :=
  "# v".data ++ natStr (V + 1) ++
    ".0 (In progress)\n\n[Full Changelog](In progress)\n\n".data

/-- The located section's body: everything of the section after its header
match. -/
def sectionBody (md : List Char) (start hlen sEnd : Nat) : List Char :=
  ((md.drop start).take (sEnd - start)).drop hlen

/-- Result of one changelog edit: new document text, changed flag, compare
URL. -/
structure CloseResult where
  doc : List Char
  changed : Bool
  url : List Char
deriving DecidableEq, Repr

/-- `update_changelog_release` (the `closeSection` operation): date the
in-progress header of the `version` section and resolve its first pending
compare-link placeholder, editing only within the located section span; when
the header is absent, change nothing but still return the compare URL. -/
def update_changelog_release (version : Nat) (date_str : List Char) (prev_version : Int)
    (md : List Char) : CloseResult :=
  let cu := compareUrl prev_version version
  match locateSection version md with
  | none => ⟨md, false, cu⟩
  | some (start, _, sEnd) =>
    let sec := (md.drop start).take (sEnd - start)
    let r1 := subnFirstML (matchHeaderIP version) (datedHeader version date_str) sec
    let r2 := subnFirstPlain (litCI placeholderLit) (fullChangelogLink cu) r1.1
    if r1.2 ≠ 0 ∨ r2.2 ≠ 0 then ⟨md.take start ++ r2.1 ++ md.drop sEnd, true, cu⟩
    else ⟨md, false, cu⟩

/-- `update_changelog_main_start_next` (the `startNextCycle` operation): close
out the located `version` section in place and insert the fresh
`version + 1` in-progress section immediately before it; when no section is
located, prepend the fresh section to the whole document.  Always writes. -/
def update_changelog_main_start_next (version : Nat) (date_str : List Char)
    (md : List Char) : CloseResult :=
  let cu := compareUrl ((version : Int) - 1) version
  let newTop := newTopSection version
  match locateSection version md with
  | none => ⟨newTop ++ md, true, cu⟩
  | some (start, _, sEnd) =>
    let sec := (md.drop start).take (sEnd - start)
    let r1 := subnFirstML (matchHeaderIP version) (datedHeader version date_str) sec
    let r2 := subnFirstPlain (litCI placeholderLit) (fullChangelogLink cu) r1.1
    ⟨md.take start ++ newTop ++ r2.1 ++ md.drop sEnd, true, cu⟩


/-! ### Character-level lemmas -/

theorem char_toNat_inj {a b : Char} (h : a.toNat = b.toNat) : a = b := by
  have h2 := congrArg Char.ofNat h
  rwa [Char.ofNat_toNat, Char.ofNat_toNat] at h2

theorem ciEq_iff {a b : Char} : ciEq a b = true ↔ lowerN a.toNat = lowerN b.toNat := by
  simp [ciEq]

theorem ciEq_refl (a : Char) : ciEq a a = true := ciEq_iff.mpr rfl

theorem lowerN_spec (n : Nat) : lowerN n = n ∨ (65 ≤ n ∧ n ≤ 90 ∧ lowerN n = n + 32) := by
  by_cases h : 65 ≤ n ∧ n ≤ 90
  · right
    exact ⟨h.1, h.2, by simp [lowerN, h]⟩
  · left
    simp [lowerN, h]

theorem ciEq_elim {p c : Char} (h : ciEq p c = true) :
    c.toNat = lowerN p.toNat ∨
      (65 ≤ c.toNat ∧ c.toNat ≤ 90 ∧ c.toNat + 32 = lowerN p.toNat) := by
  have h2 := ciEq_iff.mp h
  have hc := lowerN_spec c.toNat
  omega

theorem ciEq_ne_hash {p c : Char} (h : ciEq p c = true) (hp : lowerN p.toNat ≠ 35) :
    c ≠ '#' := by
  intro hc
  subst hc
  have he : ('#').toNat = 35 := by decide
  rcases ciEq_elim h with h1 | ⟨h2a, h2b, h2c⟩ <;> omega

theorem ciEq_ne_lbrack {p c : Char} (h : ciEq p c = true) (hp : lowerN p.toNat ≠ 91) :
    c ≠ '[' := by
  intro hc
  subst hc
  have he : ('[').toNat = 91 := by decide
  rcases ciEq_elim h with h1 | ⟨h2a, h2b, h2c⟩ <;> omega

theorem pyWS_toNat {c : Char} (h : pyWS c = true) :
    c.toNat = 32 ∨ c.toNat = 9 ∨ c.toNat = 10 ∨ c.toNat = 13 ∨
      c.toNat = 11 ∨ c.toNat = 12 := by
  simp only [pyWS, Bool.or_eq_true, beq_iff_eq] at h
  rcases h with ((((rfl | rfl) | rfl) | rfl) | rfl) | rfl <;> decide

theorem pyWS_ne_hash_lbrack {c : Char} (h : pyWS c = true) : c ≠ '#' ∧ c ≠ '[' := by
  have := pyWS_toNat h
  have h1 : ('#').toNat = 35 := by decide
  have h2 : ('[').toNat = 91 := by decide
  constructor <;> intro hc <;> subst hc <;> omega

theorem ciEq_v_not_ws {c : Char} (h : ciEq 'v' c = true) : pyWS c = false := by
  by_contra hws
  rw [Bool.not_eq_false] at hws
  have hn := pyWS_toNat hws
  have hv : lowerN ('v').toNat = 118 := by decide
  rcases ciEq_elim h with h1 | ⟨h2a, h2b, h2c⟩ <;> omega

theorem ciEq_lparen {c : Char} (h : ciEq '(' c = true) : c = '(' := by
  have hv : lowerN ('(').toNat = 40 := by decide
  have he : ('(').toNat = 40 := by decide
  apply char_toNat_inj
  rcases ciEq_elim h with h1 | ⟨h2a, h2b, h2c⟩ <;> omega

theorem ciEq_lparen_not_ws {c : Char} (h : ciEq '(' c = true) : pyWS c = false := by
  rw [ciEq_lparen h]
  decide

theorem ciEq_rparen {c : Char} (h : ciEq ')' c = true) : c = ')' := by
  have hv : lowerN (')').toNat = 41 := by decide
  have he : (')').toNat = 41 := by decide
  apply char_toNat_inj
  rcases ciEq_elim h with h1 | ⟨h2a, h2b, h2c⟩ <;> omega

theorem ciEq_lbrack_left {c : Char} (h : ciEq '[' c = true) : c = '[' := by
  have hv : lowerN ('[').toNat = 91 := by decide
  have he : ('[').toNat = 91 := by decide
  apply char_toNat_inj
  rcases ciEq_elim h with h1 | ⟨h2a, h2b, h2c⟩ <;> omega

theorem isDig_ne_hash_lbrack {c : Char} (h : isDig c = true) : c ≠ '#' ∧ c ≠ '[' := by
  have := isDig_toNat h
  have h1 : ('#').toNat = 35 := by decide
  have h2 : ('[').toNat = 91 := by decide
  constructor <;> intro hc <;> subst hc <;> omega

/-! ### `litCI` and `dropWS` structure lemmas -/

theorem litCI_self (p t : List Char) : litCI p (p ++ t) = some t := by
  induction p with
  | nil => rfl
  | cons c cs ih =>
    rw [List.cons_append]
    simp [litCI, ciEq_refl, ih]

theorem litCI_decomp {pat s r : List Char} (h : litCI pat s = some r) :
    ∃ u, s = u ++ r ∧ List.Forall₂ (fun p c => ciEq p c = true) pat u := by
  induction pat generalizing s with
  | nil =>
    simp only [litCI, Option.some.injEq] at h
    exact ⟨[], by rw [h]; rfl, List.Forall₂.nil⟩
  | cons p ps ih =>
    cases s with
    | nil => simp [litCI] at h
    | cons c cs =>
      simp only [litCI] at h
      by_cases hc : ciEq p c = true
      · rw [if_pos hc] at h
        obtain ⟨u, rfl, hf⟩ := ih h
        exact ⟨c :: u, rfl, List.Forall₂.cons hc hf⟩
      · rw [if_neg hc] at h
        cases h

theorem litCI_append_of_forall₂ {pat u : List Char}
    (h : List.Forall₂ (fun p c => ciEq p c = true) pat u) (t : List Char) :
    litCI pat (u ++ t) = some t := by
  induction h with
  | nil => rfl
  | cons hpc hrest ih =>
    rw [List.cons_append]
    simp [litCI, hpc, ih]

theorem dropWS_cons_of_ws {c : Char} (h : pyWS c = true) (t : List Char) :
    dropWS (c :: t) = dropWS t := by
  simp [dropWS, h]

theorem dropWS_cons_of_not_ws {c : Char} (h : pyWS c = false) (t : List Char) :
    dropWS (c :: t) = c :: t := by
  simp [dropWS, h]

theorem dropWS_ws_append {u : List Char} (hu : ∀ c ∈ u, pyWS c = true) (t : List Char) :
    dropWS (u ++ t) = dropWS t := by
  induction u with
  | nil => rfl
  | cons c cs ih =>
    rw [List.cons_append, dropWS_cons_of_ws (hu c (List.mem_cons_self c cs))]
    exact ih (fun d hd => hu d (List.mem_cons_of_mem c hd))

theorem dropWS_decomp (s : List Char) :
    ∃ u, s = u ++ dropWS s ∧ ∀ c ∈ u, pyWS c = true := by
  induction s with
  | nil => exact ⟨[], rfl, by simp⟩
  | cons c cs ih =>
    by_cases hc : pyWS c = true
    · obtain ⟨u, hu, hws⟩ := ih
      refine ⟨c :: u, ?_, ?_⟩
      · rw [dropWS_cons_of_ws hc, List.cons_append, ← hu]
      · intro d hd
        rcases List.mem_cons.mp hd with rfl | hd
        · exact hc
        · exact hws d hd
    · rw [Bool.not_eq_true] at hc
      refine ⟨[], ?_, by simp⟩
      rw [dropWS_cons_of_not_ws hc]
      rfl

/-! ### Structure of the in-progress header matcher -/

theorem matchHeaderIP_head {V : Nat} {c : Char} {s r : List Char}
    (h : matchHeaderIP V (c :: s) = some r) : c = '#' := by
  by_cases hc : c = '#'
  · exact hc
  · simp [matchHeaderIP, hc] at h

theorem matchHeaderIP_nil (V : Nat) : matchHeaderIP V [] = none := rfl

theorem matchHeaderIP_decomp {V : Nat} {s r : List Char}
    (h : matchHeaderIP V s = some r) :
    ∃ w1 u1 w2 u2,
      s = ('#' :: (w1 ++ (u1 ++ (w2 ++ u2)))) ++ r ∧
      (∀ c ∈ w1, pyWS c = true) ∧
      List.Forall₂ (fun p c => ciEq p c = true) (vlit V) u1 ∧
      (∀ c ∈ w2, pyWS c = true) ∧
      List.Forall₂ (fun p c => ciEq p c = true) ipLit u2 := by
  cases s with
  | nil => cases h
  | cons c s1 =>
    have hc := matchHeaderIP_head h
    subst hc
    simp only [matchHeaderIP, if_true] at h
    rw [Option.bind_eq_some] at h
    obtain ⟨s2, h1, h2⟩ := h
    obtain ⟨w1, hw1eq, hw1⟩ := dropWS_decomp s1
    obtain ⟨u1, hu1eq, hu1⟩ := litCI_decomp h1
    obtain ⟨w2, hw2eq, hw2⟩ := dropWS_decomp s2
    obtain ⟨u2, hu2eq, hu2⟩ := litCI_decomp h2
    rw [hu1eq] at hw1eq
    rw [hw2eq] at hw1eq
    rw [hu2eq] at hw1eq
    refine ⟨w1, u1, w2, u2, ?_, hw1, hu1, hw2, hu2⟩
    rw [List.cons_append]
    congr 1
    rw [hw1eq]
    simp [List.append_assoc]

theorem matchHeaderIP_build (V : Nat) {w1 u1 w2 u2 : List Char} (t : List Char)
    (hw1 : ∀ c ∈ w1, pyWS c = true)
    (h1 : List.Forall₂ (fun p c => ciEq p c = true) (vlit V) u1)
    (hw2 : ∀ c ∈ w2, pyWS c = true)
    (h2 : List.Forall₂ (fun p c => ciEq p c = true) ipLit u2) :
    matchHeaderIP V (('#' :: (w1 ++ (u1 ++ (w2 ++ u2)))) ++ t) = some t := by
  have hne : ∃ c1 u1', u1 = c1 :: u1' ∧ ciEq 'v' c1 = true := by
    cases h1 with
    | cons hpc hrest => exact ⟨_, _, rfl, hpc⟩
  obtain ⟨c1, u1', rfl, hc1⟩ := hne
  have hne2 : ∃ c2 u2', u2 = c2 :: u2' ∧ ciEq '(' c2 = true := by
    cases h2 with
    | cons hpc hrest => exact ⟨_, _, rfl, hpc⟩
  obtain ⟨c2, u2', rfl, hc2⟩ := hne2
  rw [List.cons_append]
  simp only [matchHeaderIP, if_true]
  have e1 : (w1 ++ ((c1 :: u1') ++ (w2 ++ (c2 :: u2')))) ++ t =
      w1 ++ ((c1 :: u1') ++ (w2 ++ ((c2 :: u2') ++ t))) := by
    simp [List.append_assoc]
  rw [e1, dropWS_ws_append hw1, List.cons_append,
    dropWS_cons_of_not_ws (ciEq_v_not_ws hc1), ← List.cons_append,
    litCI_append_of_forall₂ h1, Option.some_bind,
    dropWS_ws_append hw2, List.cons_append,
    dropWS_cons_of_not_ws (ciEq_lparen_not_ws hc2), ← List.cons_append]
  exact litCI_append_of_forall₂ h2 t

theorem matchHeaderIP_shift {V : Nat} {u r : List Char}
    (h : matchHeaderIP V (u ++ r) = some r) (t : List Char) :
    matchHeaderIP V (u ++ t) = some t := by
  obtain ⟨w1, u1, w2, u2, heq, hw1, h1, hw2, h2⟩ := matchHeaderIP_decomp h
  have hu : u = '#' :: (w1 ++ (u1 ++ (w2 ++ u2))) := List.append_cancel_right heq
  rw [hu]
  exact matchHeaderIP_build V t hw1 h1 hw2 h2

theorem vlit_lowerN (V : Nat) :
    ∀ p ∈ vlit V, lowerN p.toNat ≠ 35 ∧ lowerN p.toNat ≠ 91 := by
  intro p hp
  rcases List.mem_cons.mp hp with rfl | hp
  · exact ⟨by decide, by decide⟩
  rcases List.mem_append.mp hp with hp | hp
  · have hd := isDig_toNat (natStr_all_digit V p hp)
    have hl := lowerN_spec p.toNat
    omega
  · rcases List.mem_cons.mp hp with rfl | hp
    · exact ⟨by decide, by decide⟩
    rcases List.mem_cons.mp hp with rfl | hp
    · exact ⟨by decide, by decide⟩
    · cases hp

theorem ipLit_lowerN : ∀ p ∈ ipLit, lowerN p.toNat ≠ 35 ∧ lowerN p.toNat ≠ 91 := by
  decide

theorem forall₂_ciEq_no_hash_lbrack {pat u : List Char}
    (h : List.Forall₂ (fun p c => ciEq p c = true) pat u)
    (hpat : ∀ p ∈ pat, lowerN p.toNat ≠ 35 ∧ lowerN p.toNat ≠ 91) :
    ∀ c ∈ u, c ≠ '#' ∧ c ≠ '[' := by
  induction h with
  | nil => simp
  | @cons p c pat' u' hpc hrest ih =>
    intro d hd
    rcases List.mem_cons.mp hd with rfl | hd
    · exact ⟨ciEq_ne_hash hpc (hpat p (List.mem_cons_self p pat')).1,
        ciEq_ne_lbrack hpc (hpat p (List.mem_cons_self p pat')).2⟩
    · exact ih (fun q hq => hpat q (List.mem_cons_of_mem p hq)) d hd

theorem matchHeaderIP_consumed_chars {V : Nat} {w1 u1 w2 u2 : List Char}
    (hw1 : ∀ c ∈ w1, pyWS c = true)
    (h1 : List.Forall₂ (fun p c => ciEq p c = true) (vlit V) u1)
    (hw2 : ∀ c ∈ w2, pyWS c = true)
    (h2 : List.Forall₂ (fun p c => ciEq p c = true) ipLit u2) :
    ∀ c ∈ w1 ++ (u1 ++ (w2 ++ u2)), c ≠ '#' ∧ c ≠ '[' := by
  intro c hc
  rcases List.mem_append.mp hc with hc | hc
  · exact pyWS_ne_hash_lbrack (hw1 c hc)
  rcases List.mem_append.mp hc with hc | hc
  · exact forall₂_ciEq_no_hash_lbrack h1 (vlit_lowerN V) c hc
  rcases List.mem_append.mp hc with hc | hc
  · exact pyWS_ne_hash_lbrack (hw2 c hc)
  · exact forall₂_ciEq_no_hash_lbrack h2 ipLit_lowerN c hc

theorem forall₂_ciEq_getLast {pat u : List Char} {x : Char}
    (h : List.Forall₂ (fun p c => ciEq p c = true) pat u)
    (hx : pat.getLast? = some x) :
    ∃ y, u.getLast? = some y ∧ ciEq x y = true := by
  induction h with
  | nil => simp at hx
  | @cons p c pat' u' hpc hrest ih =>
    cases pat' with
    | nil =>
      cases hrest
      simp only [List.getLast?_singleton, Option.some.injEq] at hx
      subst hx
      exact ⟨c, by simp, hpc⟩
    | cons p2 pat'' =>
      rw [List.getLast?_cons_cons] at hx
      obtain ⟨y, hy, hxy⟩ := ih hx
      refine ⟨y, ?_, hxy⟩
      cases u' with
      | nil => cases hrest
      | cons c2 u'' =>
        rw [List.getLast?_cons_cons]
        exact hy

theorem ipLit_forall₂_getLast {u2 : List Char}
    (h2 : List.Forall₂ (fun p c => ciEq p c = true) ipLit u2) :
    u2.getLast? = some ')' := by
  have hip : ipLit.getLast? = some ')' := by decide
  obtain ⟨y, hy, hxy⟩ := forall₂_ciEq_getLast h2 hip
  rw [hy, ciEq_rparen hxy]

theorem forall₂_ne_nil {pat u : List Char} {p : Char} {ps : List Char}
    (h : List.Forall₂ (fun p c => ciEq p c = true) pat u) (hp : pat = p :: ps) :
    u ≠ [] := by
  subst hp
  cases h
  simp

/-! ### Facts about the replacement strings -/

theorem datedHeader_eq (V : Nat) (d : List Char) :
    datedHeader V d =
      '#' :: (' ' :: (vlit V ++ (' ' :: '(' :: '_' :: (d ++ ('_' :: ')' :: []))))) := by
  have e1 : ("# v".data : List Char) = ['#', ' ', 'v'] := rfl
  have e2 : ((".0 (_".data : List Char)) = ['.', '0', ' ', '(', '_'] := rfl
  have e3 : (("_)".data : List Char)) = ['_', ')'] := rfl
  simp [datedHeader, vlit, e1, e2, e3]

/-- Well-formed caller-supplied date stamp: digits and dashes (`YYYY-MM-DD`). -/
def dateOK (d : List Char) : Bool := d.all (fun c => isDig c || c == '-')

theorem dateOK_chars {d : List Char} (h : dateOK d = true) :
    ∀ c ∈ d, c ≠ '#' ∧ c ≠ '[' := by
  intro c hc
  have hx := List.all_eq_true.mp h c hc
  rw [Bool.or_eq_true] at hx
  rcases hx with hd | hd
  · exact isDig_ne_hash_lbrack hd
  · rw [beq_iff_eq] at hd
    subst hd
    exact ⟨by decide, by decide⟩

theorem vlit_no_hash_lbrack (V : Nat) : ∀ p ∈ vlit V, p ≠ '#' ∧ p ≠ '[' := by
  intro p hp
  rcases List.mem_cons.mp hp with rfl | hp
  · exact ⟨by decide, by decide⟩
  rcases List.mem_append.mp hp with hp | hp
  · exact isDig_ne_hash_lbrack (natStr_all_digit V p hp)
  · rcases List.mem_cons.mp hp with rfl | hp
    · exact ⟨by decide, by decide⟩
    rcases List.mem_cons.mp hp with rfl | hp
    · exact ⟨by decide, by decide⟩
    · cases hp

theorem datedHeader_tail_chars {V : Nat} {d : List Char} (hd : dateOK d = true) :
    ∀ c ∈ (' ' :: (vlit V ++ (' ' :: '(' :: '_' :: (d ++ ('_' :: ')' :: []))))),
      c ≠ '#' ∧ c ≠ '[' := by
  intro c hc
  rcases List.mem_cons.mp hc with rfl | hc
  · exact ⟨by decide, by decide⟩
  rcases List.mem_append.mp hc with hc | hc
  · exact vlit_no_hash_lbrack V c hc
  rcases List.mem_cons.mp hc with rfl | hc
  · exact ⟨by decide, by decide⟩
  rcases List.mem_cons.mp hc with rfl | hc
  · exact ⟨by decide, by decide⟩
  rcases List.mem_cons.mp hc with rfl | hc
  · exact ⟨by decide, by decide⟩
  rcases List.mem_append.mp hc with hc | hc
  · exact dateOK_chars hd c hc
  rcases List.mem_cons.mp hc with rfl | hc
  · exact ⟨by decide, by decide⟩
  rcases List.mem_cons.mp hc with rfl | hc
  · exact ⟨by decide, by decide⟩
  · cases hc

theorem datedHeader_no_lbrack {V : Nat} {d : List Char} (hd : dateOK d = true) :
    ∀ c ∈ datedHeader V d, c ≠ '[' := by
  intro c hc
  rw [datedHeader_eq] at hc
  rcases List.mem_cons.mp hc with rfl | hc
  · decide
  · exact (datedHeader_tail_chars hd c hc).2

theorem mem_lit_ne_hash {lit : List Char} (hlit : lit.all (fun c => !(c == '#')) = true)
    {c : Char} (hc : c ∈ lit) : c ≠ '#' := by
  have hx := List.all_eq_true.mp hlit c hc
  simpa using hx

theorem datedHeader_getLast (V : Nat) (d : List Char) :
    (datedHeader V d).getLast? = some ')' := by
  have e3 : (("_)".data : List Char)) = ['_', ')'] := rfl
  have e : datedHeader V d =
      ("# v".data ++ (natStr V ++ (".0 (_".data ++ (d ++ ['_'])))) ++ [')'] := by
    simp [datedHeader, e3]
  rw [e, List.getLast?_concat]

theorem matchHeaderIP_datedHeader (V : Nat) (d t : List Char) :
    matchHeaderIP V (datedHeader V d ++ t) = none := by
  rw [datedHeader_eq, List.cons_append]
  simp only [matchHeaderIP, if_true]
  have e : ((' ' :: (vlit V ++ (' ' :: '(' :: '_' :: (d ++ ('_' :: ')' :: []))))) ++ t) =
      ' ' :: (vlit V ++ ((' ' :: '(' :: '_' :: (d ++ ('_' :: ')' :: []))) ++ t)) := by
    simp [List.append_assoc]
  rw [e, dropWS_cons_of_ws (by decide)]
  have hv : vlit V ++ ((' ' :: '(' :: '_' :: (d ++ ('_' :: ')' :: []))) ++ t) =
      'v' :: ((natStr V ++ ('.' :: '0' :: [])) ++
        ((' ' :: '(' :: '_' :: (d ++ ('_' :: ')' :: []))) ++ t)) := by
    simp [vlit]
  rw [hv, dropWS_cons_of_not_ws (by decide), ← hv, litCI_self (vlit V), Option.some_bind,
    List.cons_append, dropWS_cons_of_ws (by decide), List.cons_append,
    dropWS_cons_of_not_ws (by decide)]
  have hip : ipLit = '(' :: 'I' :: ("n progress)".data) := rfl
  rw [hip]
  simp only [litCI]
  rw [if_pos (by decide), if_neg (by decide)]

theorem intStr_chars (i : Int) : ∀ c ∈ intStr i, isDig c = true ∨ c = '-' := by
  unfold intStr
  split
  · intro c hc
    rcases List.mem_cons.mp hc with rfl | hc
    · right; rfl
    · left; exact natStr_all_digit _ c hc
  · intro c hc
    left
    exact natStr_all_digit _ c hc

theorem compareUrl_no_hash {prev : Int} {v : Nat} : ∀ c ∈ compareUrl prev v, c ≠ '#' := by
  intro c hc
  unfold compareUrl at hc
  rcases List.mem_append.mp hc with hc1 | hc1
  · rcases List.mem_append.mp hc1 with hc2 | hc2
    · rcases List.mem_append.mp hc2 with hc3 | hc3
      · rcases List.mem_append.mp hc3 with hc4 | hc4
        · exact mem_lit_ne_hash (by decide) hc4
        · rcases intStr_chars prev c hc4 with hd | rfl
          · exact (isDig_ne_hash_lbrack hd).1
          · decide
      · exact mem_lit_ne_hash (by decide) hc3
    · exact (isDig_ne_hash_lbrack (natStr_all_digit v c hc2)).1
  · exact mem_lit_ne_hash (by decide) hc1

theorem fullChangelogLink_no_hash {url : List Char} (hurl : ∀ c ∈ url, c ≠ '#') :
    ∀ c ∈ fullChangelogLink url, c ≠ '#' := by
  intro c hc
  unfold fullChangelogLink at hc
  rcases List.mem_append.mp hc with hc1 | hc1
  · rcases List.mem_append.mp hc1 with hc2 | hc2
    · exact mem_lit_ne_hash (by decide) hc2
    · exact hurl c hc2
  · exact mem_lit_ne_hash (by decide) hc1

theorem fullChangelogLink_getLast (url : List Char) :
    (fullChangelogLink url).getLast? = some ')' := by
  have e1 : ((")".data : List Char)) = [')'] := rfl
  have e : fullChangelogLink url = ("[Full Changelog](".data ++ url) ++ [')'] := by
    simp [fullChangelogLink, e1]
  rw [e, List.getLast?_concat]

theorem fullChangelogLink_head (url : List Char) :
    fullChangelogLink url = '[' :: ("Full Changelog](".data ++ (url ++ ")".data)) := rfl

theorem placeholder_head {c : Char} {cs r : List Char}
    (h : litCI placeholderLit (c :: cs) = some r) : c = '[' := by
  have hp : placeholderLit = '[' :: ("Full Changelog](In progress)".data) := rfl
  rw [hp] at h
  simp only [litCI] at h
  by_cases hc : ciEq '[' c = true
  · exact ciEq_lbrack_left hc
  · rw [if_neg hc] at h
    cases h

theorem placeholder_nil : litCI placeholderLit [] = none := rfl

/-! ### Search characterization lemmas -/

theorem searchML_nil (m : List Char → Option (List Char)) (ls : Bool) :
    searchML m ls [] =
      match (if ls then m [] else none) with
      | some r => some (0, ([] : List Char).length - r.length)
      | none => none := rfl

theorem searchML_cons (m : List Char → Option (List Char)) (ls : Bool) (c : Char)
    (cs : List Char) :
    searchML m ls (c :: cs) =
      match (if ls then m (c :: cs) else none) with
      | some r => some (0, (c :: cs).length - r.length)
      | none => (searchML m (c == '\n') cs).map (fun q => (q.1 + 1, q.2)) := rfl

theorem searchPlain_nil (m : List Char → Option (List Char)) :
    searchPlain m [] =
      match m [] with
      | some r => some (0, ([] : List Char).length - r.length)
      | none => none := rfl

theorem searchPlain_cons (m : List Char → Option (List Char)) (c : Char) (cs : List Char) :
    searchPlain m (c :: cs) =
      match m (c :: cs) with
      | some r => some (0, (c :: cs).length - r.length)
      | none => (searchPlain m cs).map (fun q => (q.1 + 1, q.2)) := rfl

theorem searchPlain_cons_none {m : List Char → Option (List Char)} {c : Char}
    {cs : List Char} (h : m (c :: cs) = none) :
    searchPlain m (c :: cs) = (searchPlain m cs).map (fun q => (q.1 + 1, q.2)) := by
  rw [searchPlain_cons, h]

theorem searchPlain_exact {m : List Char → Option (List Char)} {s r : List Char}
    (h : m s = some r) : searchPlain m s = some (0, s.length - r.length) := by
  cases s with
  | nil => rw [searchPlain_nil, h]
  | cons c cs => rw [searchPlain_cons, h]

/-- Is position `p` tried by `searchML m ls s`? -/
def qualifiedAt (ls : Bool) (s : List Char) (p : Nat) : Bool :=
  if p = 0 then ls else s[p - 1]? == some '\n'

theorem qualifiedAt_succ (ls : Bool) (c : Char) (cs : List Char) (p : Nat) :
    qualifiedAt ls (c :: cs) (p + 1) = qualifiedAt (c == '\n') cs p := by
  unfold qualifiedAt
  cases p with
  | zero =>
    rw [if_neg (by omega), if_pos rfl]
    have e : (0 : Nat) + 1 - 1 = 0 := rfl
    rw [e, List.getElem?_cons_zero]
    exact Option.some_beq_some
  | succ p' =>
    rw [if_neg (by omega), if_neg (by omega)]
    congr 1
    simp [Nat.add_sub_cancel]

theorem qualifiedAt_zero (ls : Bool) (s : List Char) : qualifiedAt ls s 0 = ls := by
  unfold qualifiedAt
  rw [if_pos rfl]

theorem qualifiedAt_true_eq_lineStart (s : List Char) (p : Nat) :
    qualifiedAt true s p = lineStartAt s p := by
  unfold qualifiedAt lineStartAt
  cases p with
  | zero => simp
  | succ p' =>
    rw [if_neg (by omega)]
    simp

theorem searchML_some {m : List Char → Option (List Char)} {s : List Char} :
    ∀ {ls : Bool} {p k : Nat}, searchML m ls s = some (p, k) →
      qualifiedAt ls s p = true ∧
      ∃ r, m (s.drop p) = some r ∧ k = (s.drop p).length - r.length := by
  induction s with
  | nil =>
    intro ls p k h
    rw [searchML_nil] at h
    cases hm : (if ls then m ([] : List Char) else none) with
    | none => rw [hm] at h; cases h
    | some r =>
      rw [hm] at h
      simp only [Option.some.injEq, Prod.mk.injEq] at h
      obtain ⟨h1, h2⟩ := h
      subst h1
      subst h2
      by_cases hls : ls
      · rw [if_pos hls] at hm
        exact ⟨by rw [qualifiedAt_zero, hls], r, by simpa using hm, by simp⟩
      · rw [if_neg hls] at hm
        cases hm
  | cons c cs ih =>
    intro ls p k h
    rw [searchML_cons] at h
    cases hm : (if ls then m (c :: cs) else none) with
    | some r =>
      rw [hm] at h
      simp only [Option.some.injEq, Prod.mk.injEq] at h
      obtain ⟨h1, h2⟩ := h
      subst h1
      subst h2
      by_cases hls : ls
      · rw [if_pos hls] at hm
        exact ⟨by rw [qualifiedAt_zero, hls], r, by simpa using hm, by simp⟩
      · rw [if_neg hls] at hm
        cases hm
    | none =>
      rw [hm] at h
      simp only [Option.map_eq_some'] at h
      obtain ⟨⟨p', k'⟩, hrec, hpk⟩ := h
      simp only [Prod.mk.injEq] at hpk
      obtain ⟨h1, h2⟩ := hpk
      subst h1
      subst h2
      obtain ⟨hq, r, hm', hk⟩ := ih hrec
      refine ⟨?_, r, ?_, ?_⟩
      · rw [qualifiedAt_succ]
        exact hq
      · simpa using hm'
      · simpa using hk

theorem searchML_none {m : List Char → Option (List Char)} {ls : Bool} {s : List Char}
    (h : ∀ p, qualifiedAt ls s p = true → m (s.drop p) = none) :
    searchML m ls s = none := by
  cases hs : searchML m ls s with
  | none => rfl
  | some pk =>
    obtain ⟨p, k⟩ := pk
    obtain ⟨hq, r, hm, _⟩ := searchML_some hs
    rw [h p hq] at hm
    cases hm

theorem searchML_pos_lt {m : List Char → Option (List Char)} (hm0 : m [] = none)
    {ls : Bool} {s : List Char} {p k : Nat} (h : searchML m ls s = some (p, k)) :
    p < s.length := by
  obtain ⟨_, r, hmr, _⟩ := searchML_some h
  by_contra hge
  rw [List.drop_of_length_le (by omega), hm0] at hmr
  cases hmr

theorem searchPlain_some {m : List Char → Option (List Char)} {s : List Char} :
    ∀ {p k : Nat}, searchPlain m s = some (p, k) →
      ∃ r, m (s.drop p) = some r ∧ k = (s.drop p).length - r.length := by
  induction s with
  | nil =>
    intro p k h
    rw [searchPlain_nil] at h
    cases hm : m ([] : List Char) with
    | none => rw [hm] at h; cases h
    | some r =>
      rw [hm] at h
      simp only [Option.some.injEq, Prod.mk.injEq] at h
      obtain ⟨h1, h2⟩ := h
      subst h1
      subst h2
      exact ⟨r, hm, by simp⟩
  | cons c cs ih =>
    intro p k h
    rw [searchPlain_cons] at h
    cases hm : m (c :: cs) with
    | some r =>
      rw [hm] at h
      simp only [Option.some.injEq, Prod.mk.injEq] at h
      obtain ⟨h1, h2⟩ := h
      subst h1
      subst h2
      exact ⟨r, hm, by simp⟩
    | none =>
      rw [hm] at h
      simp only [Option.map_eq_some'] at h
      obtain ⟨⟨p', k'⟩, hrec, hpk⟩ := h
      simp only [Prod.mk.injEq] at hpk
      obtain ⟨h1, h2⟩ := hpk
      subst h1
      subst h2
      obtain ⟨r, hm', hk⟩ := ih hrec
      exact ⟨r, by simpa using hm', by simpa using hk⟩

theorem searchPlain_append_left_none {m : List Char → Option (List Char)} {a : List Char}
    (b : List Char) (h : ∀ p, p < a.length → m (a.drop p ++ b) = none) :
    searchPlain m (a ++ b) = (searchPlain m b).map (fun q => (q.1 + a.length, q.2)) := by
  induction a with
  | nil =>
    simp only [List.nil_append, List.length_nil]
    cases hw : searchPlain m b with
    | none => rfl
    | some q => simp
  | cons c cs ih =>
    rw [List.cons_append]
    have h0 : m (c :: (cs ++ b)) = none := by
      have hx := h 0 (by simp)
      simpa using hx
    rw [searchPlain_cons_none h0]
    have hrec := ih (fun p hp => by
      have hx := h (p + 1) (by simp only [List.length_cons]; omega)
      simpa using hx)
    rw [hrec]
    cases searchPlain m b with
    | none => rfl
    | some q =>
      simp only [Option.map_some', Option.some.injEq, List.length_cons, Prod.mk.injEq]
      exact ⟨by omega, trivial⟩

/-! ### Locating and rewriting the section -/

theorem matchAnyHeader_nil : matchAnyHeader [] = none := rfl

theorem locateSection_decomp {V : Nat} {md : List Char} {start hlen sEnd : Nat}
    (h : locateSection V md = some (start, hlen, sEnd)) :
    ∃ u r1, md.drop start = u ++ r1 ∧ u.length = hlen ∧
      matchHeaderIP V (md.drop start) = some r1 ∧
      lineStartAt md start = true ∧
      start + hlen ≤ sEnd ∧ sEnd ≤ md.length := by
  unfold locateSection at h
  cases h1 : searchAt (matchHeaderIP V) md 0 with
  | none => rw [h1] at h; cases h
  | some pk =>
    obtain ⟨p0, k0⟩ := pk
    rw [h1] at h
    have hmain : (match searchAt matchAnyHeader md (p0 + k0) with
        | some (p, _) => some (p0, k0, p)
        | none => some (p0, k0, md.length)) = some (start, hlen, sEnd) := h
    clear h
    unfold searchAt at h1
    simp only [Option.map_eq_some'] at h1
    obtain ⟨⟨p', k'⟩, hsml, hpk⟩ := h1
    simp only [Prod.mk.injEq] at hpk
    have hstart : p0 = p' := by omega
    subst hstart
    have hk0 : k0 = k' := hpk.2.symm
    subst hk0
    rw [show lineStartAt md 0 = true from rfl, List.drop_zero] at hsml
    obtain ⟨hq, r1, hm, hk⟩ := searchML_some hsml
    have hplt : p0 < md.length := searchML_pos_lt rfl hsml
    obtain ⟨w1, u1, w2, u2, heq, hw1, hf1, hw2, hf2⟩ := matchHeaderIP_decomp hm
    have hulen : ('#' :: (w1 ++ (u1 ++ (w2 ++ u2)))).length + r1.length =
        (md.drop p0).length := by
      rw [heq, List.length_append]
    have huk : ('#' :: (w1 ++ (u1 ++ (w2 ++ u2)))).length = k0 := by
      rw [List.length_drop] at hulen
      rw [List.length_drop] at hk
      omega
    have hls : lineStartAt md p0 = true := by
      rwa [qualifiedAt_true_eq_lineStart] at hq
    have hrk : r1.length + k0 = md.length - p0 := by
      rw [List.length_drop] at hulen
      omega
    cases h2 : searchAt matchAnyHeader md (p0 + k0) with
    | some pk2 =>
      obtain ⟨p2, k2⟩ := pk2
      rw [h2] at hmain
      simp only [Option.some.injEq, Prod.mk.injEq] at hmain
      obtain ⟨he1, he2, he3⟩ := hmain
      subst he1
      subst he2
      subst he3
      unfold searchAt at h2
      simp only [Option.map_eq_some'] at h2
      obtain ⟨⟨p2', k2'⟩, hsml2, hpk2⟩ := h2
      simp only [Prod.mk.injEq] at hpk2
      have hlt2 : p2' < (md.drop (p0 + k0)).length :=
        searchML_pos_lt matchAnyHeader_nil hsml2
      rw [List.length_drop] at hlt2
      exact ⟨'#' :: (w1 ++ (u1 ++ (w2 ++ u2))), r1, heq, huk, hm, hls,
        by omega, by omega⟩
    | none =>
      rw [h2] at hmain
      simp only [Option.some.injEq, Prod.mk.injEq] at hmain
      obtain ⟨he1, he2, he3⟩ := hmain
      subst he1
      subst he2
      subst he3
      exact ⟨'#' :: (w1 ++ (u1 ++ (w2 ++ u2))), r1, heq, huk, hm, hls,
        by omega, by omega⟩

theorem subnFirstML_eq (m : List Char → Option (List Char)) (repl s : List Char) :
    subnFirstML m repl s =
      match searchML m true s with
      | none => (s, 0)
      | some (p, k) => (s.take p ++ repl ++ s.drop (p + k), 1) := rfl

theorem subnFirstPlain_eq (m : List Char → Option (List Char)) (repl s : List Char) :
    subnFirstPlain m repl s =
      match searchPlain m s with
      | none => (s, 0)
      | some (p, k) => (s.take p ++ repl ++ s.drop (p + k), 1) := rfl

theorem subnFirstML_section {V : Nat} {u r1 : List Char} {n : Nat} (date : List Char)
    (hu : matchHeaderIP V (u ++ r1) = some r1) (hle : u.length ≤ n) :
    subnFirstML (matchHeaderIP V) (datedHeader V date) ((u ++ r1).take n) =
      (datedHeader V date ++ r1.take (n - u.length), 1) := by
  have hsec : (u ++ r1).take n = u ++ r1.take (n - u.length) := by
    rw [List.take_append_eq_append_take, List.take_of_length_le hle]
  have hm : matchHeaderIP V (u ++ r1.take (n - u.length)) =
      some (r1.take (n - u.length)) := matchHeaderIP_shift hu _
  obtain ⟨w1', u1', w2', u2', heq, _, _, _, _⟩ := matchHeaderIP_decomp hu
  have hu' : u = '#' :: (w1' ++ (u1' ++ (w2' ++ u2'))) := List.append_cancel_right heq
  have hcons : u ++ r1.take (n - u.length) =
      '#' :: ((w1' ++ (u1' ++ (w2' ++ u2'))) ++ r1.take (n - u.length)) := by
    rw [hu', List.cons_append]
  have hsearch : searchML (matchHeaderIP V) true (u ++ r1.take (n - u.length)) =
      some (0, u.length) := by
    rw [hcons, searchML_cons, if_pos rfl, ← hcons, hm]
    show some (0, (u ++ r1.take (n - u.length)).length - (r1.take (n - u.length)).length) =
      some (0, u.length)
    rw [List.length_append]
    simp
  rw [hsec, subnFirstML_eq, hsearch]
  show ((u ++ r1.take (n - u.length)).take 0 ++ datedHeader V date ++
      (u ++ r1.take (n - u.length)).drop (0 + u.length), 1) =
    (datedHeader V date ++ r1.take (n - u.length), 1)
  rw [List.take_zero, List.nil_append, Nat.zero_add, List.drop_left]

theorem placeholder_no_match_in_nh {V : Nat} {date : List Char} (hd : dateOK date = true)
    (body : List Char) :
    ∀ p, p < (datedHeader V date).length →
      litCI placeholderLit ((datedHeader V date).drop p ++ body) = none := by
  intro p hp
  cases hdrop : (datedHeader V date).drop p with
  | nil =>
    exfalso
    have hlen := congrArg List.length hdrop
    simp only [List.length_drop, List.length_nil] at hlen
    omega
  | cons c cs =>
    rw [List.cons_append]
    cases hm : litCI placeholderLit (c :: (cs ++ body)) with
    | none => rfl
    | some r =>
      exfalso
      have hc : c = '[' := placeholder_head hm
      have hcmem : c ∈ datedHeader V date := by
        have hmem : c ∈ (datedHeader V date).drop p := by
          rw [hdrop]
          exact List.mem_cons_self _ _
        exact List.mem_of_mem_drop hmem
      exact absurd hc (datedHeader_no_lbrack hd c hcmem)

theorem subnFirstPlain_nh {V : Nat} {date : List Char} (hd : dateOK date = true)
    (repl body : List Char) :
    subnFirstPlain (litCI placeholderLit) repl (datedHeader V date ++ body) =
      match searchPlain (litCI placeholderLit) body with
      | none => (datedHeader V date ++ body, 0)
      | some (q, plen) =>
          (datedHeader V date ++ body.take q ++ repl ++ body.drop (q + plen), 1) := by
  have hskip := @searchPlain_append_left_none (litCI placeholderLit) (datedHeader V date)
    body (@placeholder_no_match_in_nh V date hd body)
  rw [subnFirstPlain_eq, hskip]
  cases hsp : searchPlain (litCI placeholderLit) body with
  | none => rfl
  | some qp =>
    obtain ⟨q, plen⟩ := qp
    simp only [Option.map_some']
    show ((datedHeader V date ++ body).take (q + (datedHeader V date).length) ++ repl ++
        (datedHeader V date ++ body).drop (q + (datedHeader V date).length + plen), 1) =
      (datedHeader V date ++ body.take q ++ repl ++ body.drop (q + plen), 1)
    have e1 : q + (datedHeader V date).length = (datedHeader V date).length + q := by omega
    have e2 : (datedHeader V date).length + q + plen =
        (datedHeader V date).length + (q + plen) := by omega
    rw [e1, List.take_append, e2, List.drop_append]

theorem update_changelog_release_notFound {V : Nat} {date : List Char} {prev : Int}
    {md : List Char} (h : locateSection V md = none) :
    update_changelog_release V date prev md = ⟨md, false, compareUrl prev V⟩ := by
  unfold update_changelog_release
  rw [h]

theorem update_changelog_release_found {V : Nat} {date : List Char} {prev : Int}
    {md : List Char} {start hlen sEnd : Nat}
    (h : locateSection V md = some (start, hlen, sEnd)) :
    update_changelog_release V date prev md =
      (if (subnFirstML (matchHeaderIP V) (datedHeader V date)
            ((md.drop start).take (sEnd - start))).2 ≠ 0 ∨
          (subnFirstPlain (litCI placeholderLit) (fullChangelogLink (compareUrl prev V))
            (subnFirstML (matchHeaderIP V) (datedHeader V date)
              ((md.drop start).take (sEnd - start))).1).2 ≠ 0 then
        ⟨md.take start ++
          (subnFirstPlain (litCI placeholderLit) (fullChangelogLink (compareUrl prev V))
            (subnFirstML (matchHeaderIP V) (datedHeader V date)
              ((md.drop start).take (sEnd - start))).1).1 ++ md.drop sEnd,
          true, compareUrl prev V⟩
      else ⟨md, false, compareUrl prev V⟩) := by
  unfold update_changelog_release
  rw [h]

theorem update_changelog_main_notFound {V : Nat} {date : List Char} {md : List Char}
    (h : locateSection V md = none) :
    update_changelog_main_start_next V date md =
      ⟨newTopSection V ++ md, true, compareUrl ((V : Int) - 1) V⟩ := by
  unfold update_changelog_main_start_next
  rw [h]

theorem update_changelog_main_found {V : Nat} {date : List Char} {md : List Char}
    {start hlen sEnd : Nat} (h : locateSection V md = some (start, hlen, sEnd)) :
    update_changelog_main_start_next V date md =
      ⟨md.take start ++ newTopSection V ++
        (subnFirstPlain (litCI placeholderLit)
          (fullChangelogLink (compareUrl ((V : Int) - 1) V))
          (subnFirstML (matchHeaderIP V) (datedHeader V date)
            ((md.drop start).take (sEnd - start))).1).1 ++ md.drop sEnd,
        true, compareUrl ((V : Int) - 1) V⟩ := by
  unfold update_changelog_main_start_next
  rw [h]

def mdC1 : List Char :=
  "# v5.0 (In progress)\n[Full Changelog](In progress)\n# v4.0 (_d_)\nz".data

/-- C1: on a document whose in-progress section for version `V` is located at
span `[start, sEnd)` with header-match length `hlen`, and whose section body
contains the pending placeholder at offset `q` (match length `plen`),
`closeSection` (`update_changelog_release`) returns `changed = true`, the
compare URL from `prev` to `V`, and a document in which the header is replaced
by the dated header, the placeholder by the resolved compare link, and every
byte outside the located span (`md.take start` and `md.drop sEnd`) is
identical to the input. -/
theorem closeSection_spec {V : Nat} {date : List Char} {prev : Int} {md : List Char}
    {start hlen sEnd q plen : Nat}
    (hd : dateOK date = true)
    (hloc : locateSection V md = some (start, hlen, sEnd))
    (hpl : searchPlain (litCI placeholderLit) (sectionBody md start hlen sEnd) =
      some (q, plen)) :
    update_changelog_release V date prev md =
      ⟨md.take start ++ datedHeader V date ++
          (sectionBody md start hlen sEnd).take q ++
          fullChangelogLink (compareUrl prev V) ++
          (sectionBody md start hlen sEnd).drop (q + plen) ++ md.drop sEnd,
        true, compareUrl prev V⟩ := by
  obtain ⟨u, r1, hdrop, hulen, hmatch, hls, hbound1, hbound2⟩ := locateSection_decomp hloc
  subst hulen
  have hle : u.length ≤ sEnd - start := by omega
  have hsec : (md.drop start).take (sEnd - start) = (u ++ r1).take (sEnd - start) := by
    rw [hdrop]
  rw [hdrop] at hmatch
  have h1 := subnFirstML_section date hmatch hle
  have hbody : sectionBody md start u.length sEnd =
      r1.take (sEnd - start - u.length) := by
    unfold sectionBody
    rw [hdrop, List.take_append_eq_append_take, List.take_of_length_le hle,
      List.drop_left]
  rw [update_changelog_release_found hloc, hsec, h1]
  dsimp only
  rw [hbody] at hpl
  have h2 := @subnFirstPlain_nh V date hd (fullChangelogLink (compareUrl prev V))
    (r1.take (sEnd - start - u.length))
  rw [hpl] at h2
  have h2' : subnFirstPlain (litCI placeholderLit) (fullChangelogLink (compareUrl prev V))
      (datedHeader V date ++ r1.take (sEnd - start - u.length)) =
      (datedHeader V date ++ (r1.take (sEnd - start - u.length)).take q ++
        fullChangelogLink (compareUrl prev V) ++
        (r1.take (sEnd - start - u.length)).drop (q + plen), 1) := h2
  rw [h2']
  dsimp only
  rw [hbody, if_pos (Or.inl Nat.one_ne_zero)]
  simp only [List.append_assoc]

/-- Witness for C1: the concrete document of the spec's worked example. -/
theorem closeSection_spec_witness :
    dateOK ("2025-01-01".data) = true ∧
    locateSection 5 mdC1 = some (0, 20, 51) ∧
    searchPlain (litCI placeholderLit) (sectionBody mdC1 0 20 51) = some (1, 29) ∧
    update_changelog_release 5 ("2025-01-01".data) 4 mdC1 =
      ⟨mdC1.take 0 ++ datedHeader 5 ("2025-01-01".data) ++
          (sectionBody mdC1 0 20 51).take 1 ++
          fullChangelogLink (compareUrl 4 5) ++
          (sectionBody mdC1 0 20 51).drop (1 + 29) ++ mdC1.drop 51,
        true, compareUrl 4 5⟩ :=
  ⟨by decide, by decide, by decide,
    closeSection_spec (by decide) (by decide) (by decide)⟩

def headerMatchCount (V : Nat) (md : List Char) : Nat :=
  ((List.range md.length).filter
    (fun p => lineStartAt md p && (matchHeaderIP V (md.drop p)).isSome)).length

/-- C8: on a document with no in-progress header for the requested version
(no line-start position where the header pattern matches), `closeSection`
(`update_changelog_release`) leaves the document untouched, reports
`changed = false`, and still returns the compare URL computed from
`(prev, V)`. -/
theorem closeSection_notFound {V : Nat} (date : List Char) (prev : Int) {md : List Char}
    (h : headerMatchCount V md = 0) :
    update_changelog_release V date prev md = ⟨md, false, compareUrl prev V⟩ := by
  have hnil : (List.range md.length).filter
      (fun p => lineStartAt md p && (matchHeaderIP V (md.drop p)).isSome) = [] :=
    List.length_eq_zero.mp h
  have hloc : locateSection V md = none := by
    have hsearch : searchML (matchHeaderIP V) true md = none := by
      apply searchML_none
      intro p hq
      rw [qualifiedAt_true_eq_lineStart] at hq
      by_cases hp : p < md.length
      · cases hm : matchHeaderIP V (md.drop p) with
        | none => rfl
        | some r =>
          exfalso
          have hmem : p ∈ (List.range md.length).filter
              (fun p => lineStartAt md p && (matchHeaderIP V (md.drop p)).isSome) :=
            List.mem_filter.mpr ⟨List.mem_range.mpr hp,
              by simp only [hq, hm, Option.isSome_some, Bool.and_self]⟩
          rw [hnil] at hmem
          cases hmem
      · rw [List.drop_of_length_le (by omega)]
        exact matchHeaderIP_nil V
    unfold locateSection searchAt
    have hls0 : lineStartAt md 0 = true := rfl
    rw [hls0, List.drop_zero, hsearch]
    rfl
  rw [update_changelog_release_notFound hloc]

/-- Witness for C8: a document with no `v5` in-progress header. -/
theorem closeSection_notFound_witness :
    headerMatchCount 5 ("hello\nworld\n".data) = 0 ∧
    update_changelog_release 5 ("2025-01-01".data) 4 ("hello\nworld\n".data) =
      ⟨("hello\nworld\n".data), false, compareUrl 4 5⟩ :=
  ⟨by decide, closeSection_notFound ("2025-01-01".data) 4 (by decide)⟩

def mdC2 : List Char :=
  "intro\n# v5.0 (In progress)\n[Full Changelog](In progress)\nx".data

/-- C2 counterexample: on a document with content before the located section,
`startNextCycle` (`update_changelog_main_start_next`) does not place the new
section at the very start of the output — the preamble stays first. -/
theorem startNextCycle_c2_counterexample :
    ¬ ((update_changelog_main_start_next 5 ("2025-01-01".data)
          ("intro\n# v5.0 (In progress)\nx".data)).doc.take
        (newTopSection 5).length = newTopSection 5) := by decide

/-- C2 (amended): `startNextCycle` always reports `changed = true`; when no
section for `V` is located it prepends the fresh `V + 1` section to the whole
document, and for every located section at `[start, sEnd)` it inserts the
fresh section immediately before that section — after the unchanged preamble
`md.take start` — while applying the close-out edits in the same call: the
header is dated, and the pending placeholder is resolved when present while a
placeholder-less section body passes through unchanged. -/
theorem startNextCycle_spec {V : Nat} {date : List Char} {md : List Char}
    (hd : dateOK date = true) :
    (update_changelog_main_start_next V date md).changed = true ∧
    (locateSection V md = none →
      (update_changelog_main_start_next V date md).doc = newTopSection V ++ md) ∧
    (∀ start hlen sEnd,
      locateSection V md = some (start, hlen, sEnd) →
      (update_changelog_main_start_next V date md).doc =
        md.take start ++ newTopSection V ++ datedHeader V date ++
          (match searchPlain (litCI placeholderLit) (sectionBody md start hlen sEnd) with
            | none => sectionBody md start hlen sEnd
            | some (q, plen) =>
              (sectionBody md start hlen sEnd).take q ++
                fullChangelogLink (compareUrl ((V : Int) - 1) V) ++
                (sectionBody md start hlen sEnd).drop (q + plen)) ++
          md.drop sEnd) := by
  refine ⟨?_, ?_, ?_⟩
  · cases hloc : locateSection V md with
    | none => rw [update_changelog_main_notFound hloc]
    | some t =>
      obtain ⟨start, hlen, sEnd⟩ := t
      rw [update_changelog_main_found hloc]
  · intro hloc
    rw [update_changelog_main_notFound hloc]
  · intro start hlen sEnd hloc
    rw [update_changelog_main_found hloc]
    dsimp only
    obtain ⟨u, r1, hdrop, hulen, hmatch, hls, hbound1, hbound2⟩ := locateSection_decomp hloc
    subst hulen
    have hle : u.length ≤ sEnd - start := by omega
    have hsec : (md.drop start).take (sEnd - start) = (u ++ r1).take (sEnd - start) := by
      rw [hdrop]
    rw [hdrop] at hmatch
    have h1 := subnFirstML_section date hmatch hle
    have hbody : sectionBody md start u.length sEnd =
        r1.take (sEnd - start - u.length) := by
      unfold sectionBody
      rw [hdrop, List.take_append_eq_append_take, List.take_of_length_le hle,
        List.drop_left]
    rw [hsec, h1]
    dsimp only
    rw [hbody]
    have h2 := @subnFirstPlain_nh V date hd
      (fullChangelogLink (compareUrl ((V : Int) - 1) V))
      (r1.take (sEnd - start - u.length))
    cases hpl : searchPlain (litCI placeholderLit)
        (r1.take (sEnd - start - u.length)) with
    | none =>
      rw [hpl] at h2
      have h2' : subnFirstPlain (litCI placeholderLit)
          (fullChangelogLink (compareUrl ((V : Int) - 1) V))
          (datedHeader V date ++ r1.take (sEnd - start - u.length)) =
          (datedHeader V date ++ r1.take (sEnd - start - u.length), 0) := h2
      rw [h2']
      dsimp only
      simp only [List.append_assoc]
    | some qp =>
      obtain ⟨q, plen⟩ := qp
      rw [hpl] at h2
      have h2' : subnFirstPlain (litCI placeholderLit)
          (fullChangelogLink (compareUrl ((V : Int) - 1) V))
          (datedHeader V date ++ r1.take (sEnd - start - u.length)) =
          (datedHeader V date ++ (r1.take (sEnd - start - u.length)).take q ++
            fullChangelogLink (compareUrl ((V : Int) - 1) V) ++
            (r1.take (sEnd - start - u.length)).drop (q + plen), 1) := h2
      rw [h2']
      dsimp only
      simp only [List.append_assoc]

def mdC2b : List Char := "intro\n# v5.0 (In progress)\nx".data

set_option maxRecDepth 8192 in
/-- Witness for C2: one document with the placeholder present and one
placeholder-less document, both with a preamble. -/
theorem startNextCycle_spec_witness :
    dateOK ("2025-01-01".data) = true ∧
    locateSection 5 mdC2 = some (6, 20, 58) ∧
    locateSection 5 mdC2b = some (6, 20, 28) ∧
    (update_changelog_main_start_next 5 ("2025-01-01".data) mdC2).changed = true ∧
    (update_changelog_main_start_next 5 ("2025-01-01".data) mdC2).doc =
      mdC2.take 6 ++ newTopSection 5 ++ datedHeader 5 ("2025-01-01".data) ++
        ((sectionBody mdC2 6 20 58).take 1 ++
          fullChangelogLink (compareUrl (((5 : Nat) : Int) - 1) 5) ++
          (sectionBody mdC2 6 20 58).drop (1 + 29)) ++ mdC2.drop 58 ∧
    (update_changelog_main_start_next 5 ("2025-01-01".data) mdC2b).doc =
      mdC2b.take 6 ++ newTopSection 5 ++ datedHeader 5 ("2025-01-01".data) ++
        sectionBody mdC2b 6 20 28 ++ mdC2b.drop 28 :=
  ⟨by decide, by decide, by decide,
    (startNextCycle_spec (by decide)).1,
    by
      have h := (@startNextCycle_spec 5 ("2025-01-01".data) mdC2
        (by decide)).2.2 6 20 58 (by decide)
      rw [h]
      decide,
    by
      have h := (@startNextCycle_spec 5 ("2025-01-01".data) mdC2b
        (by decide)).2.2 6 20 28 (by decide)
      rw [h]
      decide⟩

theorem locateSection_none_of_no_match {V : Nat} {d : List Char}
    (h : ∀ p, lineStartAt d p = true → matchHeaderIP V (d.drop p) = none) :
    locateSection V d = none := by
  have hsearch : searchML (matchHeaderIP V) true d = none := by
    apply searchML_none
    intro p hq
    rw [qualifiedAt_true_eq_lineStart] at hq
    exact h p hq
  unfold locateSection searchAt
  have hls0 : lineStartAt d 0 = true := rfl
  rw [hls0, List.drop_zero, hsearch]
  rfl

theorem headerMatch_unique {V : Nat} {md : List Char} (hcount : headerMatchCount V md ≤ 1)
    {p1 p2 : Nat}
    (hl1 : lineStartAt md p1 = true) (hm1 : matchHeaderIP V (md.drop p1) ≠ none)
    (hl2 : lineStartAt md p2 = true) (hm2 : matchHeaderIP V (md.drop p2) ≠ none) :
    p1 = p2 := by
  by_contra hne
  have hp1 : p1 < md.length := by
    by_contra hge
    exact hm1 (by rw [List.drop_of_length_le (by omega)]; exact matchHeaderIP_nil V)
  have hp2 : p2 < md.length := by
    by_contra hge
    exact hm2 (by rw [List.drop_of_length_le (by omega)]; exact matchHeaderIP_nil V)
  have hmem1 : p1 ∈ (List.range md.length).filter
      (fun p => lineStartAt md p && (matchHeaderIP V (md.drop p)).isSome) := by
    refine List.mem_filter.mpr ⟨List.mem_range.mpr hp1, ?_⟩
    show (lineStartAt md p1 && (matchHeaderIP V (md.drop p1)).isSome) = true
    rw [hl1, Bool.true_and]
    exact Option.isSome_iff_ne_none.mpr hm1
  have hmem2 : p2 ∈ (List.range md.length).filter
      (fun p => lineStartAt md p && (matchHeaderIP V (md.drop p)).isSome) := by
    refine List.mem_filter.mpr ⟨List.mem_range.mpr hp2, ?_⟩
    show (lineStartAt md p2 && (matchHeaderIP V (md.drop p2)).isSome) = true
    rw [hl2, Bool.true_and]
    exact Option.isSome_iff_ne_none.mpr hm2
  have hnodup : ((List.range md.length).filter
      (fun p => lineStartAt md p && (matchHeaderIP V (md.drop p)).isSome)).Nodup :=
    List.Nodup.filter _ (List.nodup_range md.length)
  have hsub : ({p1, p2} : Finset Nat) ⊆ ((List.range md.length).filter
      (fun p => lineStartAt md p && (matchHeaderIP V (md.drop p)).isSome)).toFinset := by
    intro x hx
    rcases Finset.mem_insert.mp hx with rfl | hx
    · exact List.mem_toFinset.mpr hmem1
    · rw [Finset.mem_singleton] at hx
      subst hx
      exact List.mem_toFinset.mpr hmem2
  have hcard := Finset.card_le_card hsub
  rw [Finset.card_pair hne, List.toFinset_card_of_nodup hnodup] at hcard
  unfold headerMatchCount at hcount
  omega

theorem lineStartAt_of_getElem {s1 s2 : List Char} {p1 p2 : Nat}
    (h1 : 0 < p1) (h2 : 0 < p2) (hc : s1[p1 - 1]? = s2[p2 - 1]?)
    (hls : lineStartAt s1 p1 = true) : lineStartAt s2 p2 = true := by
  obtain ⟨n1, rfl⟩ : ∃ n, p1 = n + 1 := ⟨p1 - 1, by omega⟩
  obtain ⟨n2, rfl⟩ : ∃ n, p2 = n + 1 := ⟨p2 - 1, by omega⟩
  unfold lineStartAt at hls ⊢
  have e1 : (n1 + 1 == 0) = false := rfl
  have e2 : (n2 + 1 == 0) = false := rfl
  rw [e1, Bool.false_or] at hls
  rw [e2, Bool.false_or, ← hc]
  exact hls

theorem not_lineStart_after_rparen {s : List Char} {p : Nat}
    (h1 : 0 < p) (hc : s[p - 1]? = some ')') : lineStartAt s p = false := by
  obtain ⟨n, rfl⟩ : ∃ n, p = n + 1 := ⟨p - 1, by omega⟩
  unfold lineStartAt
  have e1 : (n + 1 == 0) = false := rfl
  rw [e1, Bool.false_or, hc]
  decide

theorem matchHeaderIP_transfer {V : Nat} {A X W : List Char} {g : Char}
    (hA : A ≠ []) (hg : g = '#' ∨ g = '[')
    (hm : matchHeaderIP V (A ++ (g :: X)) ≠ none) :
    matchHeaderIP V (A ++ W) ≠ none := by
  cases hval : matchHeaderIP V (A ++ (g :: X)) with
  | none => exact absurd hval hm
  | some r =>
    obtain ⟨w1, u1, w2, u2, heq, hw1, h1, hw2, h2⟩ := matchHeaderIP_decomp hval
    have htchars : ∀ c ∈ w1 ++ (u1 ++ (w2 ++ u2)), c ≠ '#' ∧ c ≠ '[' :=
      matchHeaderIP_consumed_chars hw1 h1 hw2 h2
    have hAlen : 1 ≤ A.length := by
      cases A with
      | nil => exact absurd rfl hA
      | cons a as => simp
    have hlen : 1 + (w1 ++ (u1 ++ (w2 ++ u2))).length ≤ A.length := by
      by_contra hgt
      have hAle : A.length ≤ (w1 ++ (u1 ++ (w2 ++ u2))).length := by omega
      have e1 : (A ++ (g :: X))[A.length]? = some g := by
        rw [List.getElem?_append_right (le_refl _), Nat.sub_self]
        exact List.getElem?_cons_zero
      rw [heq] at e1
      rw [List.getElem?_append_left (by simp only [List.length_cons]; omega)] at e1
      have hj : A.length = (A.length - 1) + 1 := by omega
      rw [hj, List.getElem?_cons_succ] at e1
      have hgmem : g ∈ w1 ++ (u1 ++ (w2 ++ u2)) := List.getElem?_mem e1
      rcases hg with rfl | rfl
      · exact (htchars _ hgmem).1 rfl
      · exact (htchars _ hgmem).2 rfl
    have htake : A.take ('#' :: (w1 ++ (u1 ++ (w2 ++ u2)))).length =
        '#' :: (w1 ++ (u1 ++ (w2 ++ u2))) := by
      have e := congrArg (List.take (('#' :: (w1 ++ (u1 ++ (w2 ++ u2)))).length)) heq
      rw [List.take_append_of_le_length (by simp only [List.length_cons]; omega)] at e
      rw [List.take_left] at e
      exact e
    have hsplit : A = ('#' :: (w1 ++ (u1 ++ (w2 ++ u2)))) ++
        A.drop ('#' :: (w1 ++ (u1 ++ (w2 ++ u2)))).length := by
      conv_lhs =>
        rw [← List.take_append_drop (('#' :: (w1 ++ (u1 ++ (w2 ++ u2)))).length) A]
      rw [htake]
    rw [hsplit, List.append_assoc,
      matchHeaderIP_build V (A.drop ('#' :: (w1 ++ (u1 ++ (w2 ++ u2)))).length ++ W)
        hw1 h1 hw2 h2]
    simp

theorem no_match_prefix_zones {V : Nat} {date md : List Char} {start : Nat}
    {W T : List Char}
    (hdt : dateOK date = true)
    (hstart : start ≤ md.length)
    (hmd : md = md.take start ++ W)
    (huniq : ∀ q, lineStartAt md q = true →
      matchHeaderIP V (md.drop q) ≠ none → q = start)
    {p : Nat}
    (hp : lineStartAt (md.take start ++ (datedHeader V date ++ T)) p = true)
    (hnone : matchHeaderIP V
      ((md.take start ++ (datedHeader V date ++ T)).drop p) ≠ none)
    (hple : p ≤ start + (datedHeader V date).length) : False := by
  have hPlen : (md.take start).length = start := by
    rw [List.length_take]
    omega
  have hNHlen : 0 < (datedHeader V date).length := by
    rw [datedHeader_eq]
    simp
  rcases Nat.lt_trichotomy p start with hlt | heqp | hgt
  · have hdropD : (md.take start ++ (datedHeader V date ++ T)).drop p =
        (md.take start).drop p ++ (datedHeader V date ++ T) := by
      rw [List.drop_append_eq_append_drop]
      have e : p - (md.take start).length = 0 := by omega
      rw [e, List.drop_zero]
    have hdropmd : md.drop p = (md.take start).drop p ++ W := by
      conv_lhs => rw [hmd]
      rw [List.drop_append_eq_append_drop]
      have e : p - (md.take start).length = 0 := by omega
      rw [e, List.drop_zero]
    have hA : (md.take start).drop p ≠ [] := by
      intro hnil
      have hlen := congrArg List.length hnil
      simp only [List.length_drop, List.length_nil] at hlen
      omega
    have hNH : datedHeader V date ++ T =
        '#' :: ((' ' :: (vlit V ++ (' ' :: '(' :: '_' ::
          (date ++ ('_' :: ')' :: []))))) ++ T) := by
      rw [datedHeader_eq, List.cons_append]
    have hm0 : matchHeaderIP V ((md.take start).drop p ++
        ('#' :: ((' ' :: (vlit V ++ (' ' :: '(' :: '_' ::
          (date ++ ('_' :: ')' :: []))))) ++ T))) ≠ none := by
      rw [← hNH, ← hdropD]
      exact hnone
    have hm' : matchHeaderIP V (md.drop p) ≠ none := by
      rw [hdropmd]
      exact matchHeaderIP_transfer hA (Or.inl rfl) hm0
    have hlsmd : lineStartAt md p = true := by
      cases Nat.eq_zero_or_pos p with
      | inl h0 => subst h0; rfl
      | inr hpos =>
        refine lineStartAt_of_getElem hpos hpos ?_ hp
        have e1 : (md.take start ++ (datedHeader V date ++ T))[p - 1]? =
            (md.take start)[p - 1]? := List.getElem?_append_left (by omega)
        have e2 : md[p - 1]? = (md.take start)[p - 1]? := by
          conv_lhs => rw [hmd]
          exact List.getElem?_append_left (by omega)
        rw [e1, e2]
    have := huniq p hlsmd hm'
    omega
  · have hdropD : (md.take start ++ (datedHeader V date ++ T)).drop p =
        datedHeader V date ++ T := by
      have e : p = (md.take start).length := by omega
      rw [e, List.drop_left]
    rw [hdropD] at hnone
    exact hnone (matchHeaderIP_datedHeader V date T)
  · rcases Nat.lt_or_ge p (start + (datedHeader V date).length) with hlt2 | hge2
    · have hD2 : md.take start ++ (datedHeader V date ++ T) =
          (md.take start ++ datedHeader V date) ++ T := by
        rw [List.append_assoc]
      have hdropD : (md.take start ++ (datedHeader V date ++ T)).drop p =
          (datedHeader V date).drop (p - start) ++ T := by
        rw [hD2, List.drop_append_eq_append_drop]
        have e : p - (md.take start ++ datedHeader V date).length = 0 := by
          rw [List.length_append]
          omega
        rw [e, List.drop_zero, List.drop_append_eq_append_drop,
          List.drop_of_length_le (by omega), List.nil_append, hPlen]
      have hj : p - start = (p - start - 1) + 1 := by omega
      have hNHd : (datedHeader V date).drop (p - start) =
          (' ' :: (vlit V ++ (' ' :: '(' :: '_' ::
            (date ++ ('_' :: ')' :: []))))).drop (p - start - 1) := by
        rw [datedHeader_eq, hj, List.drop_succ_cons]
        congr 1
      cases hdr : (' ' :: (vlit V ++ (' ' :: '(' :: '_' ::
          (date ++ ('_' :: ')' :: []))))).drop (p - start - 1) with
      | nil =>
        have hlen := congrArg List.length hdr
        simp only [List.length_drop, List.length_nil] at hlen
        have hNHlen2 : (datedHeader V date).length =
            (' ' :: (vlit V ++ (' ' :: '(' :: '_' ::
              (date ++ ('_' :: ')' :: []))))).length + 1 := by
          rw [datedHeader_eq]
          rfl
        omega
      | cons c cs =>
        have hcmem : c ∈ (' ' :: (vlit V ++ (' ' :: '(' :: '_' ::
            (date ++ ('_' :: ')' :: []))))) := by
          have hmem0 : c ∈ (' ' :: (vlit V ++ (' ' :: '(' :: '_' ::
              (date ++ ('_' :: ')' :: []))))).drop (p - start - 1) := by
            rw [hdr]
            exact List.mem_cons_self c cs
          exact List.mem_of_mem_drop hmem0
        rw [hdropD, hNHd, hdr, List.cons_append] at hnone
        cases hval : matchHeaderIP V (c :: (cs ++ T)) with
        | none => exact hnone hval
        | some r =>
          exact (datedHeader_tail_chars hdt c hcmem).1 (matchHeaderIP_head hval)
    · have hpeq : p = start + (datedHeader V date).length := by omega
      have hNHne : datedHeader V date ≠ [] := by
        rw [datedHeader_eq]
        exact List.cons_ne_nil _ _
      have hprev : (md.take start ++ (datedHeader V date ++ T))[p - 1]? = some ')' := by
        have hD2 : md.take start ++ (datedHeader V date ++ T) =
            (md.take start ++ datedHeader V date) ++ T := by
          rw [List.append_assoc]
        rw [hD2, List.getElem?_append_left (by rw [List.length_append]; omega)]
        have e : p - 1 = (md.take start ++ datedHeader V date).length - 1 := by
          rw [List.length_append]
          omega
        rw [e, ← List.getLast?_eq_getElem?,
          List.getLast?_append_of_ne_nil _ hNHne, datedHeader_getLast]
      have hpos : 0 < p := by omega
      have hfalse := not_lineStart_after_rparen hpos hprev
      rw [hp] at hfalse
      exact Bool.noConfusion hfalse

theorem suffix_zone_contra {V : Nat} {md D : List Char} {start : Nat}
    {E F S : List Char} {j : Nat}
    (huniq : ∀ q, lineStartAt md q = true →
      matchHeaderIP V (md.drop q) ≠ none → q = start)
    (hD : D = E ++ S) (hmd2 : md = F ++ S)
    (hFstart : start < F.length) (hj : 1 ≤ j)
    (hp : lineStartAt D (E.length + j) = true)
    (hnone : matchHeaderIP V (D.drop (E.length + j)) ≠ none) : False := by
  have eL : D.drop (E.length + j) = S.drop j := by
    rw [hD, List.drop_append_eq_append_drop, List.drop_of_length_le (by omega),
      List.nil_append]
    congr 1
    omega
  have eR : md.drop (F.length + j) = S.drop j := by
    rw [hmd2, List.drop_append_eq_append_drop, List.drop_of_length_le (by omega),
      List.nil_append]
    congr 1
    omega
  have hprevL : D[E.length + j - 1]? = S[j - 1]? := by
    rw [hD, List.getElem?_append_right (by omega)]
    congr 1
    omega
  have hprevR : md[F.length + j - 1]? = S[j - 1]? := by
    rw [hmd2, List.getElem?_append_right (by omega)]
    congr 1
    omega
  have hm' : matchHeaderIP V (md.drop (F.length + j)) ≠ none := by
    rw [eR, ← eL]
    exact hnone
  have hls' : lineStartAt md (F.length + j) = true :=
    lineStartAt_of_getElem (by omega) (by omega) (hprevL.trans hprevR.symm) hp
  have := huniq _ hls' hm'
  omega

/-- C9 counterexample: with two in-progress headers for the same version, the
second `closeSection` call edits the document again (`changed = true`). -/
theorem closeSection_c9_counterexample :
    (update_changelog_release 5 ("2025-01-01".data) 4
        ((update_changelog_release 5 ("2025-01-01".data) 4
          ("# v5.0 (In progress)\n# v5.0 (In progress)\n".data)).doc)).changed =
      true := by
  decide

/-- C9 (amended): when the document has at most one line-start match of the
in-progress header for `V` and the date stamp is digits-and-dashes, a second
`closeSection` call on the output of a first call is a no-op: it returns the
first output's document unchanged with `changed = false` and the same compare
URL. -/
theorem closeSection_idempotent {V : Nat} {date : List Char} {prev : Int}
    {md : List Char} (hd : dateOK date = true) (hcount : headerMatchCount V md ≤ 1) :
    update_changelog_release V date prev (update_changelog_release V date prev md).doc =
      ⟨(update_changelog_release V date prev md).doc, false, compareUrl prev V⟩ := by
  cases hloc : locateSection V md with
  | none =>
    rw [update_changelog_release_notFound hloc]
    exact update_changelog_release_notFound hloc
  | some t =>
    obtain ⟨start, hlen, sEnd⟩ := t
    obtain ⟨u, r1, hdrop, hulen, hmatch0, hls, hbound1, hbound2⟩ :=
      locateSection_decomp hloc
    subst hulen
    have hstartle : start ≤ md.length := by omega
    have hPlen : (md.take start).length = start := by
      rw [List.length_take]
      omega
    have hNHlen : 0 < (datedHeader V date).length := by
      rw [datedHeader_eq]
      simp
    have hle : u.length ≤ sEnd - start := by omega
    have hsec : (md.drop start).take (sEnd - start) = (u ++ r1).take (sEnd - start) := by
      rw [hdrop]
    rw [hdrop] at hmatch0
    have h1 := subnFirstML_section date hmatch0 hle
    have hC : md.drop sEnd = r1.drop (sEnd - start - u.length) := by
      have e1 : (md.drop start).drop (sEnd - start) = md.drop sEnd := by
        rw [List.drop_drop]
        congr 1
        omega
      rw [← e1, hdrop, List.drop_append_eq_append_drop,
        List.drop_of_length_le hle, List.nil_append]
    have hmdur : md = md.take start ++ (u ++ r1) := by
      conv_lhs => rw [← List.take_append_drop start md]
      rw [hdrop]
    have hmd3 : md = md.take start ++
        (u ++ (r1.take (sEnd - start - u.length) ++ md.drop sEnd)) := by
      rw [hC, List.take_append_drop]
      exact hmdur
    have hmd4 : md = (md.take start ++ u) ++
        (r1.take (sEnd - start - u.length) ++ md.drop sEnd) := by
      rw [List.append_assoc]
      exact hmd3
    have hE3len : (md.take start ++ u).length = start + u.length := by
      rw [List.length_append, hPlen]
    obtain ⟨w1u, u1u, w2u, u2u, hequ, hww1, hhu1, hww2, hhu2⟩ :=
      matchHeaderIP_decomp hmatch0
    have hucons : u = '#' :: (w1u ++ (u1u ++ (w2u ++ u2u))) :=
      List.append_cancel_right hequ
    have hulen1 : 1 ≤ u.length := by
      rw [hucons]
      simp
    have hmatchmd : matchHeaderIP V (md.drop start) ≠ none := by
      rw [hdrop, hmatch0]
      simp
    have huniq : ∀ q, lineStartAt md q = true →
        matchHeaderIP V (md.drop q) ≠ none → q = start :=
      fun q hq hm => headerMatch_unique hcount hq hm hls hmatchmd
    have hE2len : (md.take start ++ datedHeader V date).length =
        start + (datedHeader V date).length := by
      rw [List.length_append, hPlen]
    cases hpl : searchPlain (litCI placeholderLit)
        (r1.take (sEnd - start - u.length)) with
    | none =>
      have h2 := @subnFirstPlain_nh V date hd (fullChangelogLink (compareUrl prev V))
        (r1.take (sEnd - start - u.length))
      rw [hpl] at h2
      have h2' : subnFirstPlain (litCI placeholderLit)
          (fullChangelogLink (compareUrl prev V))
          (datedHeader V date ++ r1.take (sEnd - start - u.length)) =
          (datedHeader V date ++ r1.take (sEnd - start - u.length), 0) := h2
      have hdoc1 : update_changelog_release V date prev md =
          ⟨md.take start ++ (datedHeader V date ++
              (r1.take (sEnd - start - u.length) ++ md.drop sEnd)),
            true, compareUrl prev V⟩ := by
        rw [update_changelog_release_found hloc, hsec, h1]
        dsimp only
        rw [h2']
        dsimp only
        rw [if_pos (Or.inl Nat.one_ne_zero)]
        simp only [List.append_assoc]
      rw [hdoc1]
      dsimp only
      refine update_changelog_release_notFound ?_
      apply locateSection_none_of_no_match
      intro p hp
      by_contra hnone
      rcases Nat.lt_or_ge p (start + (datedHeader V date).length + 1) with hplow | hphigh
      · exact no_match_prefix_zones hd hstartle hmdur huniq hp hnone (by omega)
      · have hD2 : md.take start ++ (datedHeader V date ++
            (r1.take (sEnd - start - u.length) ++ md.drop sEnd)) =
            (md.take start ++ datedHeader V date) ++
              (r1.take (sEnd - start - u.length) ++ md.drop sEnd) := by
          rw [List.append_assoc]
        have hpeq : p = (md.take start ++ datedHeader V date).length +
            (p - (md.take start ++ datedHeader V date).length) := by
          rw [hE2len]
          omega
        rw [hpeq] at hp hnone
        refine suffix_zone_contra huniq hD2 hmd4 ?_ ?_ hp hnone
        · rw [hE3len]
          omega
        · rw [hE2len]
          omega
    | some qp =>
      obtain ⟨q, plen⟩ := qp
      obtain ⟨rp, hrp, hplen⟩ := searchPlain_some hpl
      have hqB : q < (r1.take (sEnd - start - u.length)).length := by
        by_contra hge
        rw [List.drop_of_length_le (by omega)] at hrp
        rw [placeholder_nil] at hrp
        cases hrp
      have hplenB : q + plen ≤ (r1.take (sEnd - start - u.length)).length := by
        rw [List.length_drop] at hplen
        omega
      have hBtqlen : ((r1.take (sEnd - start - u.length)).take q).length = q := by
        rw [List.length_take]
        omega
      have h2 := @subnFirstPlain_nh V date hd (fullChangelogLink (compareUrl prev V))
        (r1.take (sEnd - start - u.length))
      rw [hpl] at h2
      have h2' : subnFirstPlain (litCI placeholderLit)
          (fullChangelogLink (compareUrl prev V))
          (datedHeader V date ++ r1.take (sEnd - start - u.length)) =
          (datedHeader V date ++ (r1.take (sEnd - start - u.length)).take q ++
            fullChangelogLink (compareUrl prev V) ++
            (r1.take (sEnd - start - u.length)).drop (q + plen), 1) := h2
      have hdoc1 : update_changelog_release V date prev md =
          ⟨md.take start ++ (datedHeader V date ++
              ((r1.take (sEnd - start - u.length)).take q ++
                (fullChangelogLink (compareUrl prev V) ++
                  ((r1.take (sEnd - start - u.length)).drop (q + plen) ++
                    md.drop sEnd)))),
            true, compareUrl prev V⟩ := by
        rw [update_changelog_release_found hloc, hsec, h1]
        dsimp only
        rw [h2']
        dsimp only
        rw [if_pos (Or.inl Nat.one_ne_zero)]
        simp only [List.append_assoc]
      rw [hdoc1]
      dsimp only
      refine update_changelog_release_notFound ?_
      apply locateSection_none_of_no_match
      intro p hp
      by_contra hnone
      rcases Nat.lt_or_ge p (start + (datedHeader V date).length + 1) with hplow | hphigh
      · exact no_match_prefix_zones hd hstartle hmdur huniq hp hnone (by omega)
      · have hD2 : md.take start ++ (datedHeader V date ++
            ((r1.take (sEnd - start - u.length)).take q ++
              (fullChangelogLink (compareUrl prev V) ++
                ((r1.take (sEnd - start - u.length)).drop (q + plen) ++
                  md.drop sEnd)))) =
            (md.take start ++ datedHeader V date) ++
              ((r1.take (sEnd - start - u.length)).take q ++
                (fullChangelogLink (compareUrl prev V) ++
                  ((r1.take (sEnd - start - u.length)).drop (q + plen) ++
                    md.drop sEnd))) := by
          rw [List.append_assoc]
        rcases Nat.lt_or_ge (p - (start + (datedHeader V date).length)) q with hia | hiq
        · -- inside the preserved body prefix: guarded transfer on '['
          have eL : (md.take start ++ (datedHeader V date ++
              ((r1.take (sEnd - start - u.length)).take q ++
                (fullChangelogLink (compareUrl prev V) ++
                  ((r1.take (sEnd - start - u.length)).drop (q + plen) ++
                    md.drop sEnd))))).drop p =
              ((r1.take (sEnd - start - u.length)).take q).drop
                  (p - (start + (datedHeader V date).length)) ++
                (fullChangelogLink (compareUrl prev V) ++
                  ((r1.take (sEnd - start - u.length)).drop (q + plen) ++
                    md.drop sEnd)) := by
            rw [hD2, List.drop_append_eq_append_drop,
              List.drop_of_length_le (show (md.take start ++ datedHeader V date).length ≤ p
                by rw [hE2len]; omega),
              List.nil_append, List.drop_append_eq_append_drop]
            have e : p - (md.take start ++ datedHeader V date).length -
                ((r1.take (sEnd - start - u.length)).take q).length = 0 := by
              rw [hE2len, hBtqlen]
              omega
            rw [e, List.drop_zero, hE2len]
          rw [eL, fullChangelogLink_head, List.cons_append] at hnone
          have hA : ((r1.take (sEnd - start - u.length)).take q).drop
              (p - (start + (datedHeader V date).length)) ≠ [] := by
            intro hnil
            have hlen2 := congrArg List.length hnil
            simp only [List.length_drop, List.length_nil] at hlen2
            rw [hBtqlen] at hlen2
            omega
          have eBd : (r1.take (sEnd - start - u.length)).drop
              (p - (start + (datedHeader V date).length)) =
              ((r1.take (sEnd - start - u.length)).take q).drop
                  (p - (start + (datedHeader V date).length)) ++
                (r1.take (sEnd - start - u.length)).drop q := by
            conv_lhs => rw [← List.take_append_drop q (r1.take (sEnd - start - u.length))]
            rw [List.drop_append_eq_append_drop]
            have e4 : p - (start + (datedHeader V date).length) -
                ((r1.take (sEnd - start - u.length)).take q).length = 0 := by
              rw [hBtqlen]
              omega
            rw [e4, List.drop_zero]
          have eR : md.drop (start + u.length +
              (p - (start + (datedHeader V date).length))) =
              ((r1.take (sEnd - start - u.length)).take q).drop
                  (p - (start + (datedHeader V date).length)) ++
                ((r1.take (sEnd - start - u.length)).drop q ++ md.drop sEnd) := by
            conv_lhs => rw [hmd4]
            rw [List.drop_append_eq_append_drop,
              List.drop_of_length_le (show (md.take start ++ u).length ≤
                start + u.length + (p - (start + (datedHeader V date).length))
                by rw [hE3len]; omega),
              List.nil_append, List.drop_append_eq_append_drop]
            have e2 : start + u.length + (p - (start + (datedHeader V date).length)) -
                (md.take start ++ u).length -
                (r1.take (sEnd - start - u.length)).length = 0 := by
              rw [hE3len]
              omega
            rw [e2, List.drop_zero]
            have e3 : start + u.length + (p - (start + (datedHeader V date).length)) -
                (md.take start ++ u).length =
                p - (start + (datedHeader V date).length) := by
              rw [hE3len]
              omega
            rw [e3, eBd, List.append_assoc]
          have hm' : matchHeaderIP V (md.drop (start + u.length +
              (p - (start + (datedHeader V date).length)))) ≠ none := by
            rw [eR]
            exact matchHeaderIP_transfer hA (Or.inr rfl) hnone
          have hprevL : (md.take start ++ (datedHeader V date ++
              ((r1.take (sEnd - start - u.length)).take q ++
                (fullChangelogLink (compareUrl prev V) ++
                  ((r1.take (sEnd - start - u.length)).drop (q + plen) ++
                    md.drop sEnd)))))[p - 1]? =
              ((r1.take (sEnd - start - u.length)).take q)[p -
                (start + (datedHeader V date).length) - 1]? := by
            rw [hD2, List.getElem?_append_right
              (show (md.take start ++ datedHeader V date).length ≤ p - 1
                by rw [hE2len]; omega),
              List.getElem?_append_left]
            · congr 1
              rw [hE2len]
              omega
            · rw [hBtqlen, hE2len]
              omega
          have hprevR : md[start + u.length +
              (p - (start + (datedHeader V date).length)) - 1]? =
              ((r1.take (sEnd - start - u.length)).take q)[p -
                (start + (datedHeader V date).length) - 1]? := by
            conv_lhs => rw [hmd4]
            rw [List.getElem?_append_right (show (md.take start ++ u).length ≤
                start + u.length + (p - (start + (datedHeader V date).length)) - 1
                by rw [hE3len]; omega),
              List.getElem?_append_left]
            · have eBq : ((r1.take (sEnd - start - u.length)).take q)[p -
                  (start + (datedHeader V date).length) - 1]? =
                  (r1.take (sEnd - start - u.length))[p -
                    (start + (datedHeader V date).length) - 1]? := by
                rw [List.getElem?_take, if_pos (by omega)]
              rw [eBq]
              congr 1
              rw [hE3len]
              omega
            · rw [hE3len]
              omega
          have hls' : lineStartAt md (start + u.length +
              (p - (start + (datedHeader V date).length))) = true :=
            lineStartAt_of_getElem (by omega) (by omega)
              (hprevL.trans hprevR.symm) hp
          have := huniq _ hls' hm'
          omega
        · rcases Nat.lt_or_ge (p - (start + (datedHeader V date).length))
            (q + (fullChangelogLink (compareUrl prev V)).length) with hib | hic
          · -- inside the inserted compare link: it contains no '#'
            have eL : (md.take start ++ (datedHeader V date ++
                ((r1.take (sEnd - start - u.length)).take q ++
                  (fullChangelogLink (compareUrl prev V) ++
                    ((r1.take (sEnd - start - u.length)).drop (q + plen) ++
                      md.drop sEnd))))).drop p =
                (fullChangelogLink (compareUrl prev V)).drop
                    (p - (start + (datedHeader V date).length) - q) ++
                  ((r1.take (sEnd - start - u.length)).drop (q + plen) ++
                    md.drop sEnd) := by
              rw [hD2, List.drop_append_eq_append_drop,
                List.drop_of_length_le
                  (show (md.take start ++ datedHeader V date).length ≤ p
                    by rw [hE2len]; omega),
                List.nil_append, List.drop_append_eq_append_drop,
                List.drop_of_length_le
                  (show ((r1.take (sEnd - start - u.length)).take q).length ≤
                      p - (md.take start ++ datedHeader V date).length
                    by rw [hBtqlen, hE2len]; omega),
                List.nil_append, List.drop_append_eq_append_drop]
              have e5 : p - (md.take start ++ datedHeader V date).length -
                  ((r1.take (sEnd - start - u.length)).take q).length -
                  (fullChangelogLink (compareUrl prev V)).length = 0 := by
                rw [hE2len, hBtqlen]
                omega
              rw [e5, List.drop_zero, hE2len, hBtqlen]
            rw [eL] at hnone
            cases hdr : (fullChangelogLink (compareUrl prev V)).drop
                (p - (start + (datedHeader V date).length) - q) with
            | nil =>
              have hlen2 := congrArg List.length hdr
              simp only [List.length_drop, List.length_nil] at hlen2
              omega
            | cons c cs =>
              have hmem0 : c ∈ (fullChangelogLink (compareUrl prev V)).drop
                  (p - (start + (datedHeader V date).length) - q) := by
                rw [hdr]
                exact List.mem_cons_self c cs
              have hcmem : c ∈ fullChangelogLink (compareUrl prev V) :=
                List.mem_of_mem_drop hmem0
              rw [hdr, List.cons_append] at hnone
              cases hval : matchHeaderIP V (c :: (cs ++
                  ((r1.take (sEnd - start - u.length)).drop (q + plen) ++
                    md.drop sEnd))) with
              | none => exact hnone hval
              | some r2 =>
                exact fullChangelogLink_no_hash compareUrl_no_hash c hcmem
                  (matchHeaderIP_head hval)
          · rcases Nat.eq_or_lt_of_le hic with hieq | higt
            · -- immediately after the link: previous char is ')'
              have hD3 : md.take start ++ (datedHeader V date ++
                  ((r1.take (sEnd - start - u.length)).take q ++
                    (fullChangelogLink (compareUrl prev V) ++
                      ((r1.take (sEnd - start - u.length)).drop (q + plen) ++
                        md.drop sEnd)))) =
                  (((md.take start ++ datedHeader V date) ++
                      (r1.take (sEnd - start - u.length)).take q) ++
                    fullChangelogLink (compareUrl prev V)) ++
                    ((r1.take (sEnd - start - u.length)).drop (q + plen) ++
                      md.drop sEnd) := by
                simp [List.append_assoc]
              have hElen : (((md.take start ++ datedHeader V date) ++
                  (r1.take (sEnd - start - u.length)).take q) ++
                  fullChangelogLink (compareUrl prev V)).length =
                  start + (datedHeader V date).length + q +
                    (fullChangelogLink (compareUrl prev V)).length := by
                rw [List.length_append, List.length_append, hE2len, hBtqlen]
              have hFCne : fullChangelogLink (compareUrl prev V) ≠ [] := by
                rw [fullChangelogLink_head]
                exact List.cons_ne_nil _ _
              have hprev : (md.take start ++ (datedHeader V date ++
                  ((r1.take (sEnd - start - u.length)).take q ++
                    (fullChangelogLink (compareUrl prev V) ++
                      ((r1.take (sEnd - start - u.length)).drop (q + plen) ++
                        md.drop sEnd)))))[p - 1]? = some ')' := by
                rw [hD3, List.getElem?_append_left (by rw [hElen]; omega)]
                have e : p - 1 = (((md.take start ++ datedHeader V date) ++
                    (r1.take (sEnd - start - u.length)).take q) ++
                    fullChangelogLink (compareUrl prev V)).length - 1 := by
                  rw [hElen]
                  omega
                rw [e, ← List.getLast?_eq_getElem?,
                  List.getLast?_append_of_ne_nil _ hFCne, fullChangelogLink_getLast]
              have hfalse := not_lineStart_after_rparen (by omega) hprev
              rw [hp] at hfalse
              exact Bool.noConfusion hfalse
            · -- in the preserved tail: exact suffix transfer into the input
              have hD3 : md.take start ++ (datedHeader V date ++
                  ((r1.take (sEnd - start - u.length)).take q ++
                    (fullChangelogLink (compareUrl prev V) ++
                      ((r1.take (sEnd - start - u.length)).drop (q + plen) ++
                        md.drop sEnd)))) =
                  (((md.take start ++ datedHeader V date) ++
                      (r1.take (sEnd - start - u.length)).take q) ++
                    fullChangelogLink (compareUrl prev V)) ++
                    ((r1.take (sEnd - start - u.length)).drop (q + plen) ++
                      md.drop sEnd) := by
                simp [List.append_assoc]
              have hElen : (((md.take start ++ datedHeader V date) ++
                  (r1.take (sEnd - start - u.length)).take q) ++
                  fullChangelogLink (compareUrl prev V)).length =
                  start + (datedHeader V date).length + q +
                    (fullChangelogLink (compareUrl prev V)).length := by
                rw [List.length_append, List.length_append, hE2len, hBtqlen]
              have hmd5 : md = ((md.take start ++ u) ++
                  (r1.take (sEnd - start - u.length)).take (q + plen)) ++
                  ((r1.take (sEnd - start - u.length)).drop (q + plen) ++
                    md.drop sEnd) := by
                conv_lhs => rw [hmd4]
                conv_lhs =>
                  rw [← List.take_append_drop (q + plen)
                    (r1.take (sEnd - start - u.length))]
                simp only [List.append_assoc]
              have hBtqplen : ((r1.take (sEnd - start - u.length)).take
                  (q + plen)).length = q + plen := by
                rw [List.length_take]
                omega
              have hpeq : p = (((md.take start ++ datedHeader V date) ++
                  (r1.take (sEnd - start - u.length)).take q) ++
                  fullChangelogLink (compareUrl prev V)).length +
                  (p - (((md.take start ++ datedHeader V date) ++
                    (r1.take (sEnd - start - u.length)).take q) ++
                    fullChangelogLink (compareUrl prev V)).length) := by
                rw [hElen]
                omega
              rw [hpeq] at hp hnone
              refine suffix_zone_contra huniq hD3 hmd5 ?_ ?_ hp hnone
              · rw [List.length_append, hE3len, hBtqplen]
                omega
              · rw [hElen]
                omega

def mdC9 : List Char :=
  "# v5.0 (In progress)\n[Full Changelog](In progress)\n# v4.0 (_d_)\nz".data

/-- Witness for C9 on a concrete single-header document. -/
theorem closeSection_idempotent_witness :
    dateOK ("2025-01-01".data) = true ∧
    headerMatchCount 5 mdC9 ≤ 1 ∧
    update_changelog_release 5 ("2025-01-01".data) 4
        (update_changelog_release 5 ("2025-01-01".data) 4 mdC9).doc =
      ⟨(update_changelog_release 5 ("2025-01-01".data) 4 mdC9).doc, false,
        compareUrl 4 5⟩ :=
  ⟨by decide, by decide, closeSection_idempotent (by decide) (by decide)⟩
end Relman
